import Mathlib

/-!
# Verification of the IYP query-builder core (`src/iyp_query`)

This file is a shallow embedding, in Lean 4, of the query-construction core of
the `overripe_frontend` repository: the condition algebra
(`src/iyp_query/conditions.py`), the validator (`src/iyp_query/validators.py`),
the type registry (`src/iyp_query/types.py`), the traversal pattern generator
(`src/iyp_query/traversals.py`) and the builder/compiler
(`src/iyp_query/builder.py`).

Modelling conventions, stated once here:

* Python strings are Lean `String`s.  Literal brace characters inside string
  literals are written with the escapes `\x7b` and `\x7d`.
* Python `Any` values that flow into parameter maps are modelled by the
  inductive `Value` below (ints, strings, booleans, lists, dicts); the code
  under verification only ever branches on `isinstance(value, str)` and
  `isinstance(value, dict)`, which correspond to the `.str` and `.dict`
  constructors.
* A Python `dict` is modelled as an insertion-ordered association list
  (CPython dicts preserve insertion order and have unique keys); `dict.update`
  with key-disjoint arguments is list append.
* `QueryValidator.defined_aliases` is a Python `set`.  We model it as the
  insertion-ordered list of registered aliases.  All membership tests are
  order-independent; the single order-sensitive use (joining all aliases in
  the RETURN clause of `to_cypher`) has unspecified, hash-dependent order in
  CPython, which the embedding cannot reproduce -- see the notes on that code
  path below.
* `IYPQueryBuilder.param_counter` is a Python dict whose keys are always
  exactly `param_0 .. param_{n-1}` (each insertion uses the fresh key
  `param_{len(...)}`), so only its size is observable; it is modelled by that
  size, a `Nat`.
* Exceptions (`QueryValidationError`, `ValueError`) become explicit error
  values of type `QueryErr`.  Builder methods that mutate part of the state
  before raising are modelled as returning the partially mutated state next to
  the error (`BuilderState × Option QueryErr`), mirroring the exact order of
  mutations in the Python source.
* `str.upper` / `str.lower` are modelled with `Char.toUpper` / `Char.toLower`
  mapped over the characters; this coincides with CPython on ASCII data (all
  data in the repository tables is ASCII).
-/

set_option maxHeartbeats 1600000

/-- Python runtime values that flow through the builder (filter values,
condition values, parameter-map entries, and the untyped nested dictionaries
accepted by `dict_to_condition`). -/
inductive Value where
  | int (n : Int)
  | str (s : String)
  | bool (b : Bool)
  | list (vs : List Value)
  | dict (entries : List (String × Value))
deriving Repr

/-- `isinstance(value, str)` -/
def Value.isStr : Value → Bool
  | .str _ => true
  | _ => false

/-- The distinct failure kinds raised by the core (all are
`QueryValidationError` in Python, except `valueError` which is Python
`ValueError`; the constructor tells the failure reason apart exactly as the
exception message does). -/
inductive QueryErr where
  | unknownNodeKind (s : String)
  | unknownRelKind (s : String)
  | duplicateAlias (a : String)
  | unknownAlias (a : String)
  | invalidProperty (p : String)
  | injectionRisk (pat : String)
  | invalidLimit
  | invalidSkip
  | noMatchClauses
  | valueError
deriving Repr, DecidableEq

/-- The `value`s of the `NodeType` enum in `src/iyp_query/types.py`.
`NodeType` is a `str`-mixin enum: constructing `NodeType(s)` succeeds exactly
when `s` is in this list, and the member's `.value` is `s` itself. -/
def nodeTypeValues : List String :=
  ["AS", "AtlasMeasurement", "AtlasProbe", "AuthoritativeNameServer",
   "BGPCollector", "BGPPrefix", "CaidaIXID", "CaidaOrgID", "Country",
   "DomainName", "Estimate", "Facility", "GeoPrefix", "HostName", "IP",
   "IXP", "Name", "OpaqueID", "Organization", "PeeringdbFacID",
   "PeeringdbIXID", "PeeringdbNetID", "PeeringdbOrgID", "PeeringLAN",
   "Point", "Prefix", "Ranking", "Resolver", "RDNSPrefix", "RIRPrefix",
   "RPKIPrefix", "Tag", "URL"]

/-- The `value`s of the `RelationshipType` enum in `src/iyp_query/types.py`. -/
def relTypeValues : List String :=
  ["ALIAS_OF", "ASSIGNED", "AVAILABLE", "CATEGORIZED", "CENSORED", "COUNTRY",
   "DEPENDS_ON", "EXTERNAL_ID", "LOCATED_IN", "MANAGED_BY", "MEMBER_OF",
   "NAME", "ORIGINATE", "PARENT", "PART_OF", "PEERS_WITH", "POPULATION",
   "QUERIED_FROM", "RANK", "RESERVED", "RESOLVES_TO",
   "ROUTE_ORIGIN_AUTHORIZATION", "SIBLING_OF", "TARGET", "WEBSITE"]

/-- `NODE_PROPERTIES` from `src/iyp_query/types.py`, keyed by the node-type
value string (the enum member and its value are interchangeable keys for a
`str`-mixin enum). -/
def nodeProps : List (String × List String) :=
  [("AS", ["asn", "name"]),
   ("AtlasMeasurement", ["id"]),
   ("AtlasProbe", ["id"]),
   ("AuthoritativeNameServer", ["name"]),
   ("BGPCollector", ["name"]),
   ("BGPPrefix", ["prefix", "af"]),
   ("CaidaIXID", ["id"]),
   ("CaidaOrgID", ["id"]),
   ("Country", ["country_code", "alpha3", "name"]),
   ("DomainName", ["name"]),
   ("Facility", ["name"]),
   ("GeoPrefix", ["prefix", "af"]),
   ("HostName", ["name"]),
   ("IP", ["ip", "af"]),
   ("IXP", ["name"]),
   ("Name", ["name"]),
   ("OpaqueID", ["id"]),
   ("Organization", ["name"]),
   ("PeeringdbFacID", ["id"]),
   ("PeeringdbIXID", ["id"]),
   ("PeeringdbNetID", ["id"]),
   ("PeeringdbOrgID", ["id"]),
   ("PeeringLAN", ["prefix", "af"]),
   ("Point", ["position"]),
   ("Prefix", ["prefix", "af"]),
   ("Ranking", ["name"]),
   ("RDNSPrefix", ["prefix", "af"]),
   ("RIRPrefix", ["prefix", "af"]),
   ("RPKIPrefix", ["prefix", "af"]),
   ("Tag", ["label"]),
   ("URL", ["url"])]

/-- `get_node_properties` from `src/iyp_query/types.py`:
`NODE_PROPERTIES.get(node_type, [])`. -/
def get_node_properties (nt : String) : List String :=
  ((nodeProps.lookup nt).getD [])

/-- `QueryValidator.validate_node_type`: returns the validated type value or
fails with the unknown-kind error.  For the `str`-mixin enum the validated
value is the input string itself. -/
def validate_node_type (s : String) : Except QueryErr String :=
  if nodeTypeValues.contains s then .ok s else .error (.unknownNodeKind s)

/-- `QueryValidator.validate_relationship_type`. -/
def validate_relationship_type (s : String) : Except QueryErr String :=
  if relTypeValues.contains s then .ok s else .error (.unknownRelKind s)

/-- The parameter name `param_{n}` allocated when the session counter has
size `n`. -/
def paramName (n : Nat) : String :=
  "param_" ++ Nat.repr n

/-- Python `sep.join(parts)`. -/
def joinSep (sep : String) : List String → String
  | [] => ""
  | [x] => x
  | x :: xs => x ++ sep ++ joinSep sep xs

/-- Python `s.upper()` (ASCII model; `Char.toUpper` only maps `a`-`z`). -/
def strUpper (s : String) : String :=
  String.mk (s.data.map Char.toUpper)

/-- Python `s.lower()` (ASCII model; `Char.toLower` only maps `A`-`Z`). -/
def strLower (s : String) : String :=
  String.mk (s.data.map Char.toLower)

/-- Python substring containment `needle in hay`, on character lists. -/
def isSubstringOf (needle : List Char) : List Char → Bool
  | [] => needle.isPrefixOf []
  | c :: cs => needle.isPrefixOf (c :: cs) || isSubstringOf needle cs

/-- The denylist of `QueryValidator.validate_cypher_injection`, in source
order. -/
def dangerousPatterns : List String :=
  ["DELETE", "CREATE", "MERGE", "SET", "REMOVE",
   "DETACH", "DROP", "CALL", "FOREACH", "LOAD",
   "//", "/*", "*/", "--"]

/-- `QueryValidator.validate_cypher_injection`: for string values, the first
denylisted pattern contained in the uppercased value (the Python loop raises
on the first match); `none` means the value passes.  Non-string values always
pass. -/
def validate_cypher_injection : Value → Option String
  | .str s => dangerousPatterns.find? (fun p => isSubstringOf p.data (strUpper s).data)
  | _ => none

/-- Condition trees from `src/iyp_query/conditions.py`: `Q` atoms and the
`And` / `Or` / `Not` combinators.  A `Q` carries `field`, optional `operator`
and `value`, exactly like the Python dataclass. -/
inductive Condition where
  | q (field : String) (op : Option String) (value : Value)
  | and (cs : List Condition)
  | or (cs : List Condition)
  | not (c : Condition)
deriving Repr

mutual

/-- `Condition.to_cypher(param_counter)`, for every condition class.  The
result is `(cypher_fragment, params, new_counter)`; the counter models the
size of the session-wide `param_counter` dict, which each parameter
allocation grows by one.  `Q.to_cypher` with operator `None` raises
`ValueError`; the `IN` / `NOT IN` branch of the Python source emits exactly
the same text as the generic branch, so the two are merged here.  `And` / `Or`
accumulate child parameter dicts with `update`; the allocated names are
pairwise distinct, so that is list append. -/
def condToCypher : Condition → Nat → Except QueryErr (String × List (String × Value) × Nat)
  | .q f op v, c =>
    match op with
    | none => .error .valueError
    | some o =>
      if o = "IS NULL" ∨ o = "IS NOT NULL" then
        .ok (f ++ " " ++ o, [], c)
      else
        .ok (f ++ " " ++ o ++ " $" ++ paramName c, [(paramName c, v)], c + 1)
  | .and cs, c =>
    match cs with
    | [] => .ok ("true", [], c)
    | c1 :: rest => do
      let (fs, ps, c') ← condListToCypher (c1 :: rest) c
      .ok (joinSep " AND " (fs.map (fun f => "(" ++ f ++ ")")), ps, c')
  | .or cs, c =>
    match cs with
    | [] => .ok ("false", [], c)
    | c1 :: rest => do
      let (fs, ps, c') ← condListToCypher (c1 :: rest) c
      .ok ("(" ++ joinSep " OR " (fs.map (fun f => "(" ++ f ++ ")")) ++ ")", ps, c')
  | .not c1, c => do
    let (f, ps, c') ← condToCypher c1 c
    .ok ("NOT (" ++ f ++ ")", ps, c')

/-- The child loop shared by `And.to_cypher` and `Or.to_cypher`: compile each
child in order, threading the counter, collecting fragments and parameters. -/
def condListToCypher : List Condition → Nat → Except QueryErr (List String × List (String × Value) × Nat)
  | [], c => .ok ([], [], c)
  | x :: xs, c => do
    let (f, ps, c') ← condToCypher x c
    let (fs, ps', c'') ← condListToCypher xs c'
    .ok (f :: fs, ps ++ ps', c'')

end

/-- The operator table of the inner loop of `dict_to_condition`
(`src/iyp_query/conditions.py`, the `field -> {op: val}` branch): each known
operator key builds the corresponding `Q`; an unknown key raises
`ValueError(f"Unknown operator: {op}")`. -/
def opCond (f op : String) (val : Value) : Except QueryErr Condition :=
  if op = "=" then .ok (.q f (some "=") val)
  else if op = "!=" then .ok (.q f (some "<>") val)
  else if op = "<" then .ok (.q f (some "<") val)
  else if op = "<=" then .ok (.q f (some "<=") val)
  else if op = ">" then .ok (.q f (some ">") val)
  else if op = ">=" then .ok (.q f (some ">=") val)
  else if op = "in" then .ok (.q f (some "IN") val)
  else if op = "not_in" then .ok (.q f (some "NOT IN") val)
  else if op = "contains" then .ok (.q f (some "CONTAINS") val)
  else if op = "starts_with" then .ok (.q f (some "STARTS WITH") val)
  else if op = "ends_with" then .ok (.q f (some "ENDS WITH") val)
  else if op = "regex" then .ok (.q f (some "=~") val)
  else .error .valueError

/-- The final `for field, value in condition_dict.items()` loop of
`dict_to_condition`: a field mapped to a dict dispatches on the FIRST
operator key and returns at once (an empty operator dict makes the inner
loop run zero times, so the outer loop silently moves to the next field); a
field mapped to a non-dict returns `Q(field) == value` at once; an exhausted
loop raises `ValueError("Invalid condition dictionary: ...")`. -/
def dictFields : List (String × Value) → Except QueryErr Condition
  | [] => .error .valueError
  | (f, .dict ops) :: rest =>
    match ops with
    | [] => dictFields rest
    | (op, val) :: _ => opCond f op val
  | (f, v) :: _ => .ok (.q f (some "=") v)

/-- If an association-list lookup finds a value, that value is a structural
component of the list (used for termination of `dict_to_condition`). -/
theorem lookup_sizeOf_lt (l : List (String × Value)) (k : String) (v : Value)
    (h : l.lookup k = some v) : sizeOf v < sizeOf l := by
  induction l with
  | nil => simp [List.lookup] at h
  | cons hd tl ih =>
    obtain ⟨a, b⟩ := hd
    simp only [List.lookup] at h
    by_cases hk : k = a
    · simp [hk] at h
      subst h
      simp
      omega
    · have hne : (k == a) = false := beq_false_of_ne hk
      rw [hne] at h
      simp at h
      have := ih h
      simp
      omega

mutual

/-- `dict_to_condition` from `src/iyp_query/conditions.py`.  The input is the
entry list of the Python dict.  Membership tests `'AND' in d` and the lookup
`d['AND']` coincide for a dict (unique keys); reserved keys are tried in
source order AND, OR, NOT.  A reserved key whose value has the wrong shape
(e.g. iterating a non-list, or recursing into a non-dict) raises in Python
and is `valueError` here. -/
def dict_to_condition (d : List (String × Value)) : Except QueryErr Condition :=
  match hA : d.lookup "AND" with
  | some (.list ds) => do
    let cs ← dictList ds
    .ok (.and cs)
  | some _ => .error .valueError
  | none =>
    match hO : d.lookup "OR" with
    | some (.list ds) => do
      let cs ← dictList ds
      .ok (.or cs)
    | some _ => .error .valueError
    | none =>
      match hN : d.lookup "NOT" with
      | some (.dict e) => do
        let c ← dict_to_condition e
        .ok (.not c)
      | some _ => .error .valueError
      | none => dictFields d
termination_by sizeOf d
decreasing_by
  · have := lookup_sizeOf_lt _ _ _ hA
    simp at this ⊢
    omega
  · have := lookup_sizeOf_lt _ _ _ hO
    simp at this ⊢
    omega
  · have := lookup_sizeOf_lt _ _ _ hN
    simp at this ⊢
    omega

/-- The list comprehension `[dict_to_condition(c) for c in d['AND']]`; a
non-dict element makes the recursive call raise (membership test on a
non-dict) and is `valueError` here. -/
def dictList : List Value → Except QueryErr (List Condition)
  | [] => .ok []
  | .dict e :: rest => do
    let c ← dict_to_condition e
    let cs ← dictList rest
    .ok (c :: cs)
  | _ :: _ => .error .valueError
termination_by l => sizeOf l
decreasing_by
  all_goals simp
  all_goals omega

end

/-- `TraversalStep` from `src/iyp_query/traversals.py` (the relationship and
node types are stored as their enum value strings). -/
structure TraversalStep where
  relationship : String
  direction : String
  target_node_type : Option String := none
  aliasName : Option String := none
  hops : Nat := 1
deriving Repr

/-- `TraversalStep.to_cypher_pattern(source_alias)`, byte for byte: the arrow
is chosen from the direction (`out` -> `->`, `in` -> `<-`, otherwise `-`),
the relationship token gets a `*1..N` bound when `hops > 1`, the target
pattern combines type and alias, and the step renders as
`(target){arrow}{rel}-({source})` for `in` and `({source}){arrow}{rel}-({target})`
otherwise. -/
def TraversalStep.to_cypher_pattern (step : TraversalStep) (source_alias : String) : String :=
  let arrow : String :=
    if step.direction = "out" then "->"
    else if step.direction = "in" then "<-"
    else "-"
  let rel_pattern :=
    "[:" ++ step.relationship ++
      (if step.hops > 1 then "*1.." ++ Nat.repr step.hops else "") ++ "]"
  let target_pattern :=
    match step.target_node_type, step.aliasName with
    | some t, some a => a ++ ":" ++ t
    | some t, none => t
    | none, some a => a
    | none, none => ""
  if step.direction = "in" then
    "(" ++ target_pattern ++ ")" ++ arrow ++ rel_pattern ++ "-(" ++ source_alias ++ ")"
  else
    "(" ++ source_alias ++ ")" ++ arrow ++ rel_pattern ++ "-(" ++ target_pattern ++ ")"

/-- The state of one `IYPQueryBuilder` session: the `QueryPart` accumulator,
the validator symbol table (`defined_aliases` as the insertion-ordered list of
registered aliases and `node_types` as an insertion-ordered association list),
the session parameter counter (modelled by its size), the relationship list
(only its length is ever read, for the `node_{len}` fallback alias), the
accumulated `_filter_params`, and the root alias/type. -/
structure BuilderState where
  match_clauses : List String := []
  where_conditions : List Condition := []
  return_fields : List String := []
  order_by : List String := []
  group_by : List String := []
  having_conditions : List Condition := []
  limitN : Option Nat := none
  skipN : Option Nat := none
  param_counter : Nat := 0
  defined_aliases : List String := []
  node_types : List (String × String) := []
  num_relationships : Nat := 0
  filter_params : List (String × Value) := []
  root_alias : Option String := none
  root_node_type : Option String := none
deriving Repr

/-- The fresh builder produced by `IYPQueryBuilder.__init__`. -/
def initState : BuilderState := {}

/-- `QueryValidator.register_alias`: error when the alias is already defined,
otherwise record it in both the alias set and the alias-to-kind map. -/
def register_alias (s : BuilderState) (a : String) (nt : String) :
    Except QueryErr BuilderState :=
  if s.defined_aliases.contains a then
    .error (.duplicateAlias a)
  else
    .ok { s with defined_aliases := s.defined_aliases ++ [a],
                 node_types := s.node_types ++ [(a, nt)] }

/-- The alias auto-generation loop shared by `find` and `with_relationship`:
candidate `base`, then `base_1`, `base_2`, ... until the candidate is not yet
defined.  The Python `while` loop always terminates because the `n+1`
candidates `base, base_1, ..., base_n` (`n` = number of defined aliases) are
pairwise distinct strings, so one of them is fresh; the fuel `n + 1` is
therefore enough, and the out-of-fuel branch is unreachable. -/
def genAliasAux (base : String) (defined : List String) : Nat → Nat → String
  | 0, k => if k = 0 then base else base ++ "_" ++ Nat.repr k
  | fuel + 1, k =>
    let cand := if k = 0 then base else base ++ "_" ++ Nat.repr k
    if defined.contains cand then genAliasAux base defined fuel (k + 1) else cand

/-- Auto-generate a unique alias from a base name (see `genAliasAux`). -/
def genAlias (base : String) (defined : List String) : String :=
  genAliasAux base defined (defined.length + 1) 0

/-- The `for prop, value in filters.items()` loop of `IYPQueryBuilder.find`:
each value is injection-checked, then a parameter is allocated (growing the
session counter) and the fragment `prop: $param_i` is emitted.  Returns the
fragments, the local `filter_params`, the final counter, and the first
injection error if one value fails: in Python the raise aborts `find` with
the counter already advanced by the previous iterations and the local
fragment and parameter lists discarded. -/
def processFilters : List (String × Value) → Nat →
    (List String × List (String × Value) × Nat × Option QueryErr)
  | [], n => ([], [], n, none)
  | (prop, v) :: rest, n =>
    match validate_cypher_injection v with
    | some pat => ([], [], n, some (.injectionRisk pat))
    | none =>
      let nm := paramName n
      let (parts, params, n', e) := processFilters rest (n + 1)
      ((prop ++ ": $" ++ nm) :: parts, (nm, v) :: params, n', e)

/-- `IYPQueryBuilder.find(node_type, alias, **filters)`.  Mutation order
matches the source: validate the node type, resolve the alias (explicit or
auto-generated), register it (raising `DuplicateAlias` leaves the state
unchanged), set the root alias/type, then run the filter loop -- an
`InjectionRisk` raise leaves the alias registered and the counter advanced by
the earlier filters but appends neither `_filter_params` nor the MATCH
clause -- and finally append the MATCH clause and the filter parameters. -/
def findRegistered (s : BuilderState) (validated_type : String) (a : String)
    (filters : List (String × Value)) : BuilderState × Option QueryErr :=
  match register_alias s a validated_type with
  | .error e => (s, some e)
  | .ok s1 =>
    let s2 := { s1 with root_alias := some a, root_node_type := some validated_type }
    match processFilters filters s2.param_counter with
    | (_, _, n', some e) => ({ s2 with param_counter := n' }, some e)
    | (parts, params, n', none) =>
      let match_clause :=
        if filters.isEmpty then
          "(" ++ a ++ ":" ++ validated_type ++ ")"
        else
          "(" ++ a ++ ":" ++ validated_type ++ " \x7b" ++ joinSep ", " parts ++ "\x7d)"
      ({ s2 with param_counter := n',
                 filter_params := s2.filter_params ++ params,
                 match_clauses := s2.match_clauses ++ ["MATCH " ++ match_clause] },
       none)

/-- `IYPQueryBuilder.find`, continued: type validation and alias resolution,
then the registered core above. -/
def findOp (s : BuilderState) (node_type : String) (aliasName : Option String)
    (filters : List (String × Value)) : BuilderState × Option QueryErr :=
  match validate_node_type node_type with
  | .error e => (s, some e)
  | .ok validated_type =>
    let a := match aliasName with
      | some a => a
      | none => genAlias (strLower node_type) s.defined_aliases
    findRegistered s validated_type a filters

/-- The post-validation core of `with_relationship`: register the target
alias when a target kind was given (a failing registration leaves the state
unchanged), bump the relationship list, and append the MATCH clause for the
requested direction. -/
def withRelCore (s : BuilderState) (rel_type from_alias : String)
    (to_node_type : Option String) (to_alias : String) (direction : String)
    (hops : Nat) : BuilderState × Option QueryErr :=
  let registered : Except QueryErr BuilderState :=
    match to_node_type with
    | some t => register_alias s to_alias t
    | none => .ok s
  match registered with
  | .error e => (s, some e)
  | .ok s1 =>
    let s2 := { s1 with num_relationships := s1.num_relationships + 1 }
    let rel_pattern :=
      "[:" ++ rel_type ++
        (if hops > 1 then "*1.." ++ Nat.repr hops else "") ++ "]"
    let to_pattern :=
      "(" ++ to_alias ++
        (match to_node_type with
         | some t => ":" ++ t
         | none => "") ++ ")"
    let match_clause :=
      if direction = "in" then
        "MATCH " ++ to_pattern ++ "-" ++ rel_pattern ++ "-(" ++ from_alias ++ ")"
      else if direction = "out" then
        "MATCH (" ++ from_alias ++ ")-" ++ rel_pattern ++ "->" ++ to_pattern
      else
        "MATCH (" ++ from_alias ++ ")-" ++ rel_pattern ++ "-" ++ to_pattern
    ({ s2 with match_clauses := s2.match_clauses ++ [match_clause] }, none)

/-- `IYPQueryBuilder.with_relationship(relationship, to, from_node, alias,
direction, hops)`.  Validation and mutation order match the source: validate
the relationship kind, resolve the source alias (`from_node or
self.root_alias`, which must be defined), validate the target kind when
given, resolve the target alias (explicit, auto-generated from the target
kind, or `node_{len(relationships)}`), register the target alias only when a
target kind was given, append the relationship spec, and append the MATCH
clause.  The arrow variable of the source is computed but the `in` branch of
the clause template does not use it -- the rendered `in` pattern is
undirected, byte for byte as in the source. -/
def withRelFrom (s : BuilderState) (rel_type : String) (from_alias? : Option String)
    (toType aliasName : Option String) (direction : String) (hops : Nat) :
    BuilderState × Option QueryErr :=
  match from_alias? with
  | none => (s, some (.unknownAlias "None"))
  | some from_alias =>
    if ¬ s.defined_aliases.contains from_alias then
      (s, some (.unknownAlias from_alias))
    else
      let to_node_type? : Except QueryErr (Option String) :=
        match toType with
        | some t => (validate_node_type t).map some
        | none => .ok none
      match to_node_type? with
      | .error e => (s, some e)
      | .ok to_node_type =>
        let to_alias := match aliasName with
          | some a => a
          | none =>
            match toType with
            | some t => genAlias (strLower t) s.defined_aliases
            | none => "node_" ++ Nat.repr s.num_relationships
        withRelCore s rel_type from_alias to_node_type to_alias direction hops

/-- `IYPQueryBuilder.with_relationship`, assembled: relationship validation,
the `from_node or self.root_alias` source resolution, then `withRelFrom`. -/
def with_relationship (s : BuilderState) (relationship : String)
    (toType : Option String := none) (from_node : Option String := none)
    (aliasName : Option String := none) (direction : String := "out")
    (hops : Nat := 1) : BuilderState × Option QueryErr :=
  match validate_relationship_type relationship with
  | .error e => (s, some e)
  | .ok rel_type =>
    let from_alias? := match from_node with
      | some f => some f
      | none => s.root_alias
    withRelFrom s rel_type from_alias? toType aliasName direction hops

/-- Split at the FIRST dot, like Python `text.split('.', 1)`: `none` when the
text has no dot, otherwise the parts before and after the first dot. -/
def splitFirstDot : List Char → Option (List Char × List Char)
  | [] => none
  | c :: cs =>
    if c = '.' then some ([], cs)
    else (splitFirstDot cs).map (fun p => (c :: p.1, p.2))

/-- `QueryValidator.validate_property`: a dotted reference `alias.prop` needs
a registered alias, and when that alias's kind has a non-empty allowed
property list the property must be in it; a dotless reference is a bare field
name and always passes.  Only the error behaviour is observable to the
callers modelled here (the returned tuple is discarded). -/
def validate_property (s : BuilderState) (t : String) : Option QueryErr :=
  match splitFirstDot t.data with
  | none => none
  | some (al, pr) =>
    let aliasStr := String.mk al
    let propStr := String.mk pr
    if ¬ s.defined_aliases.contains aliasStr then
      some (.unknownAlias aliasStr)
    else
      match s.node_types.lookup aliasStr with
      | none => none
      | some nt =>
        let valid_props := get_node_properties nt
        if ¬ valid_props.isEmpty ∧ ¬ valid_props.contains propStr then
          some (.invalidProperty propStr)
        else
          none

/-- `QueryValidator.validate_return_fields`: validate each field, failing on
the first bad one. -/
def validate_return_fields (s : BuilderState) : List String → Option QueryErr
  | [] => none
  | f :: fs =>
    match validate_property s f with
    | some e => some e
    | none => validate_return_fields s fs

/-- `QueryValidator.validate_order_by`: each field has all leading `-`
stripped (`lstrip('-')`) before property validation. -/
def validate_order_by (s : BuilderState) : List String → Option QueryErr
  | [] => none
  | f :: fs =>
    match validate_property s (String.mk (f.data.dropWhile (fun c => c = '-'))) with
    | some e => some e
    | none => validate_order_by s fs

/-- One builder method call.  `where` and `having` take a `Condition` (the
`Q`-object path of the source; the dictionary path is `dict_to_condition`
composed in front).  The convenience shorthands (`upstream`, `peers`, ...)
are single `with_relationship` calls with fixed arguments and need no
constructors of their own. -/
inductive BuilderCall where
  | find (node_type : String) (aliasName : Option String) (filters : List (String × Value))
  | withRel (relationship : String) (toType : Option String) (from_node : Option String)
      (aliasName : Option String) (direction : String) (hops : Nat)
  | whereCond (c : Condition)
  | returnFields (fields : List String)
  | orderBy (fields : List String)
  | groupBy (fields : List String)
  | havingCond (c : Condition)
  | limit (n : Int)
  | skip (n : Int)
deriving Repr

/-- Apply one builder call to the session state, returning the state after
the call together with the raised error, if any (the state on error reflects
exactly the mutations performed before the Python raise). -/
def applyCall (s : BuilderState) : BuilderCall → BuilderState × Option QueryErr
  | .find nt a filters => findOp s nt a filters
  | .withRel rel toT fromN a dir hops => with_relationship s rel toT fromN a dir hops
  | .whereCond c => ({ s with where_conditions := s.where_conditions ++ [c] }, none)
  | .returnFields fields =>
    match validate_return_fields s fields with
    | some e => (s, some e)
    | none => ({ s with return_fields := fields }, none)
  | .orderBy fields =>
    match validate_order_by s fields with
    | some e => (s, some e)
    | none => ({ s with order_by := fields }, none)
  | .groupBy fields =>
    match validate_return_fields s fields with
    | some e => (s, some e)
    | none => ({ s with group_by := fields }, none)
  | .havingCond c => ({ s with having_conditions := s.having_conditions ++ [c] }, none)
  | .limit n =>
    if n < 0 ∨ n > 100000 then (s, some .invalidLimit)
    else ({ s with limitN := some n.toNat }, none)
  | .skip n =>
    if n < 0 then (s, some .invalidSkip)
    else ({ s with skipN := some n.toNat }, none)

/-- Run a builder call sequence from a given state, stopping at the first
raised error (the Python exception propagates to the caller). -/
def runFrom (s : BuilderState) : List BuilderCall → BuilderState × Option QueryErr
  | [] => (s, none)
  | c :: cs =>
    match applyCall s c with
    | (s', none) => runFrom s' cs
    | (s', some e) => (s', some e)

/-- Run a builder call sequence on a fresh session. -/
def runCalls (calls : List BuilderCall) : BuilderState × Option QueryErr :=
  runFrom initState calls

/-- The textual aggregate test of the GROUP BY branch of
`IYPQueryBuilder.to_cypher`: a return field is treated as an aggregate
exactly when its lowercased text contains `count(`, `sum(` or `avg(`
(`min(` and `max(` are NOT tested). -/
def isAggField (f : String) : Bool :=
  isSubstringOf "count(".data (strLower f).data ||
  isSubstringOf "sum(".data (strLower f).data ||
  isSubstringOf "avg(".data (strLower f).data

/-- The `with_parts` list of the GROUP BY branch: all group-by fields in
order, then every return field that is not a textual aggregate and not
already in the list. -/
def withFields (group_by return_fields : List String) : List String :=
  return_fields.foldl
    (fun acc f => if ¬ isAggField f ∧ ¬ acc.contains f then acc ++ [f] else acc)
    group_by

/-- Combine a non-empty condition list the way `to_cypher` does for WHERE and
HAVING: a single condition is used directly, several are wrapped in one
`And`. -/
def combineConds (cs : List Condition) : Condition :=
  match cs with
  | [c] => c
  | cs => .and cs

/-- The WHERE-clause stage shared by `to_cypher` for `where_conditions` and
`having_conditions`: an empty list contributes no line and no parameters; a
non-empty list is combined by `combineConds`, compiled against the current
`param_counter`, and rendered as one `WHERE <fragment>` line. -/
def whereStage (wcs : List Condition) (c0 : Nat) :
    Except QueryErr (List String × List (String × Value) × Nat) :=
  match wcs with
  | [] => .ok ([], [], c0)
  | wcs => do
    let (f, ps, c') ← condToCypher (combineConds wcs) c0
    .ok (["WHERE " ++ f], ps, c')

/-- The WITH/HAVING/RETURN stage of `IYPQueryBuilder.to_cypher`: with a
GROUP BY and return fields, a `WITH` line over `withFields`, the compiled
HAVING conditions as a `WHERE` line, and a `RETURN` line; with a GROUP BY
and no return fields, a bare `RETURN` of the group-by fields (HAVING is
silently dropped); without a GROUP BY, a `RETURN` of the return fields, or
of all `defined_aliases` when none were set (the embedding joins the alias
set in registration order, while CPython iterates it in an unspecified
hash-dependent order: see the notes for claim C4). -/
def midStage (s : BuilderState) (c1 : Nat) :
    Except QueryErr (List String × List (String × Value) × Nat) :=
  if ¬ s.group_by.isEmpty then
    if ¬ s.return_fields.isEmpty then do
      let (havingParts, hps, c2) ← whereStage s.having_conditions c1
      .ok ((["WITH " ++ joinSep ", " (withFields s.group_by s.return_fields)] ++
            havingParts ++
            ["RETURN " ++ joinSep ", " s.return_fields]), hps, c2)
    else
      .ok (["RETURN " ++ joinSep ", " s.group_by], [], c1)
  else
    .ok (["RETURN " ++
      (if ¬ s.return_fields.isEmpty then joinSep ", " s.return_fields
       else joinSep ", " s.defined_aliases)], [], c1)

/-- The ORDER BY / SKIP / LIMIT lines of `IYPQueryBuilder.to_cypher`: a
leading `-` on an order-by field selects `DESC`, otherwise `ASC`. -/
def tailClauses (s : BuilderState) : List String :=
  (if s.order_by.isEmpty then []
   else
     ["ORDER BY " ++ joinSep ", " (s.order_by.map (fun f =>
       match f.data with
       | '-' :: rest => String.mk rest ++ " DESC"
       | _ => f ++ " ASC"))]) ++
  (match s.skipN with
   | some n => ["SKIP " ++ Nat.repr n]
   | none => []) ++
  (match s.limitN with
   | some n => ["LIMIT " ++ Nat.repr n]
   | none => [])

/-- `IYPQueryBuilder.to_cypher`, byte for byte, staged as in the source:
MATCH clauses, then the compiled WHERE conditions, then the
WITH/HAVING/RETURN block, then ORDER BY / SKIP / LIMIT, joined by newlines.
Fails with `noMatchClauses` when no MATCH clause was accumulated.
Compiling WHERE / HAVING conditions feeds the session `param_counter` dict
to `Condition.to_cypher`, which mutates it; the returned state carries the
advanced counter (all other state is untouched).  The final parameter dict
is built by `update`ing the WHERE params, then the HAVING params, then
`_filter_params`; all keys are distinct, so this is list append in that
order. -/
def to_cypher (s : BuilderState) :
    Except QueryErr (String × List (String × Value) × BuilderState) :=
  if s.match_clauses.isEmpty then
    .error .noMatchClauses
  else do
    let (whereParts, whereParams, c1) ← whereStage s.where_conditions s.param_counter
    let (midParts, havingParams, c2) ← midStage s c1
    .ok (joinSep "\n" (s.match_clauses ++ whereParts ++ midParts ++ tailClauses s),
      whereParams ++ havingParams ++ s.filter_params,
      { s with param_counter := c2 })

/-- Run a call sequence on a fresh session and compile once; `none` when any
step or the compilation fails. -/
def compileOnce (calls : List BuilderCall) : Option (String × List (String × Value)) :=
  match runCalls calls with
  | (s, none) =>
    match to_cypher s with
    | .ok (t, ps, _) => some (t, ps)
    | .error _ => none
  | (_, some _) => none

/-- Run a call sequence on a fresh session and compile twice in a row (no
intervening builder call), returning both query texts. -/
def compileTwice (calls : List BuilderCall) : Option (String × String) :=
  match runCalls calls with
  | (s, none) =>
    match to_cypher s with
    | .ok (t1, _, s2) =>
      match to_cypher s2 with
      | .ok (t2, _, _) => some (t1, t2)
      | .error _ => none
    | .error _ => none
  | (_, some _) => none

/-! ## Parameter tokens of the generated text

`extractTokens` recovers the `$name` parameter tokens of a query text: after
each `$`, the longest run of name characters (alphanumerics and `_`, the
characters graph-database parameter names are made of) is one token. -/

/-- Characters that may appear in a `$name` parameter token. -/
def isNameChar (c : Char) : Bool := c.isAlphanum || c = '_'

/-- Fuel-indexed scanner behind `extractTokensAux` (the fuel makes the
recursion structural, so concrete instances evaluate by `rfl` / `decide`;
`extractGo_fuel` shows any fuel at least the list length gives the same
result). -/
def extractGo : Nat → List Char → List String
  | 0, _ => []
  | _ + 1, [] => []
  | fuel + 1, c :: cs =>
    if c = '$' then
      String.mk (cs.takeWhile isNameChar) :: extractGo fuel (cs.dropWhile isNameChar)
    else
      extractGo fuel cs

/-- All `$name` tokens of a character list, in order of occurrence. -/
def extractTokensAux (cs : List Char) : List String := extractGo cs.length cs

/-- All `$name` tokens of a string, in order of occurrence. -/
def extractTokens (s : String) : List String := extractTokensAux s.data

/-- The scanner result does not depend on the fuel once the fuel covers the
list length. -/
theorem extractGo_fuel :
    ∀ (f1 f2 : Nat) (cs : List Char), cs.length ≤ f1 → cs.length ≤ f2 →
      extractGo f1 cs = extractGo f2 cs := by
  intro f1
  induction f1 with
  | zero =>
    intro f2 cs h1 _
    have : cs = [] := List.length_eq_zero.mp (Nat.le_zero.mp h1)
    subst this
    cases f2 <;> rfl
  | succ f1 ih =>
    intro f2 cs h1 h2
    match cs, f2 with
    | [], f2 => cases f2 <;> rfl
    | c :: cs, f2 + 1 =>
      rw [extractGo, extractGo]
      by_cases hc : c = '$'
      · rw [if_pos hc, if_pos hc]
        have hd := (List.dropWhile_sublist (l := cs) isNameChar).length_le
        simp at h1 h2
        rw [ih f2 _ (by omega) (by omega)]
      · rw [if_neg hc, if_neg hc]
        simp at h1 h2
        exact ih f2 cs (by omega) (by omega)

/-- Unfolding: the empty list has no tokens. -/
theorem extractAux_nil : extractTokensAux [] = [] := rfl

/-- Unfolding: a token starts at each `$`. -/
theorem extractAux_cons_dollar (cs : List Char) :
    extractTokensAux ('$' :: cs) =
      String.mk (cs.takeWhile isNameChar) :: extractTokensAux (cs.dropWhile isNameChar) := by
  show extractGo (cs.length + 1) ('$' :: cs) = _
  rw [extractGo, if_pos rfl]
  have hd := (List.dropWhile_sublist (l := cs) isNameChar).length_le
  rw [extractGo_fuel cs.length (cs.dropWhile isNameChar).length _ (by omega) (by omega)]
  rfl

/-- Extraction skips over a single non-dollar character. -/
theorem extract_cons_skip {c : Char} (h : c ≠ '$') (l : List Char) :
    extractTokensAux (c :: l) = extractTokensAux l := by
  show extractGo (l.length + 1) (c :: l) = extractGo l.length l
  rw [extractGo, if_neg h]

/-- A string with no dollar sign contributes no parameter tokens. -/
def dollarFree (s : String) : Bool := s.data.all (fun c => c ≠ '$')


/-- Skipping a `$`-free prefix does not change the tokens. -/
theorem extractAux_skip {a : List Char} (b : List Char) (h : ∀ c ∈ a, c ≠ '$') :
    extractTokensAux (a ++ b) = extractTokensAux b := by
  induction a with
  | nil => rfl
  | cons c cs ih =>
    have hc : c ≠ '$' := h c (by simp)
    rw [List.cons_append, extract_cons_skip hc]
    exact ih (fun x hx => h x (by simp [hx]))

/-- No token starts inside `a` when `a` has no `$`. -/
theorem extractAux_eq_nil {a : List Char} (h : ∀ c ∈ a, c ≠ '$') :
    extractTokensAux a = [] := by
  have := extractAux_skip (a := a) [] h
  rw [List.append_nil] at this
  rw [this, extractAux_nil]

/-- `true` when the list does not begin with a name character (so a token
ending right before it is not extended into it). -/
def headNotName : List Char → Bool
  | [] => true
  | c :: _ => ¬ isNameChar c

/-- Token extraction distributes over append when the right part does not
begin with a name character. -/
theorem extractAux_append : ∀ {a : List Char} (b : List Char), headNotName b = true →
    extractTokensAux (a ++ b) = extractTokensAux a ++ extractTokensAux b := by
  have main : ∀ (n : Nat) (a b : List Char), a.length ≤ n → headNotName b = true →
      extractTokensAux (a ++ b) = extractTokensAux a ++ extractTokensAux b := by
    intro n
    induction n with
    | zero =>
      intro a b ha _
      have : a = [] := List.length_eq_zero.mp (Nat.le_zero.mp ha)
      subst this
      simp [extractAux_nil]
    | succ n ih =>
      intro a b ha hb
      match a with
      | [] => simp [extractAux_nil]
      | c :: a' =>
        by_cases hc : c = '$'
        · subst hc
          rw [List.cons_append, extractAux_cons_dollar, extractAux_cons_dollar]
          have htake : (a' ++ b).takeWhile isNameChar = a'.takeWhile isNameChar := by
            rw [List.takeWhile_append]
            split
            · next hlen =>
              have heq : a'.takeWhile isNameChar = a' :=
                (List.takeWhile_prefix _).eq_of_length hlen
              have hbtake : b.takeWhile isNameChar = [] := by
                match b with
                | [] => rfl
                | d :: b' =>
                  simp only [headNotName, decide_eq_true_eq] at hb
                  simp [List.takeWhile, hb]
              rw [hbtake, heq, List.append_nil]
            · rfl
          have hdrop : (a' ++ b).dropWhile isNameChar = a'.dropWhile isNameChar ++ b := by
            rw [List.dropWhile_append]
            split
            · next hnil =>
              have : a'.dropWhile isNameChar = [] := by
                simpa [List.isEmpty_iff] using hnil
              rw [this]
              have hbdrop : b.dropWhile isNameChar = b := by
                match b with
                | [] => rfl
                | d :: b' =>
                  simp only [headNotName, decide_eq_true_eq] at hb
                  simp [List.dropWhile, hb]
              simp [hbdrop]
            · rfl
          rw [htake, hdrop]
          have hlen : (a'.dropWhile isNameChar).length ≤ n := by
            have := (List.dropWhile_sublist (l := a') isNameChar).length_le
            simp at ha
            omega
          rw [ih _ b hlen hb]
          simp
        · rw [List.cons_append, extract_cons_skip hc, extract_cons_skip hc]
          have hlen : a'.length ≤ n := by
            simp at ha
            omega
          exact ih _ b hlen hb
  intro a b hb
  exact main a.length a b (Nat.le_refl _) hb

/-- The single token starting at a `$` followed by a full name and then a
non-name character (or the end). -/
theorem extractAux_token {nm : List Char} (rest : List Char)
    (hnm : ∀ c ∈ nm, isNameChar c = true) (hr : headNotName rest = true) :
    extractTokensAux ('$' :: (nm ++ rest)) = String.mk nm :: extractTokensAux rest := by
  rw [extractAux_cons_dollar]
  have htake : (nm ++ rest).takeWhile isNameChar = nm := by
    have heq : nm.takeWhile isNameChar = nm := List.takeWhile_eq_self_iff.mpr hnm
    have hlen : (nm.takeWhile isNameChar).length = nm.length := by rw [heq]
    have hbtake : rest.takeWhile isNameChar = [] := by
      match rest with
      | [] => rfl
      | d :: b' =>
        simp only [headNotName, decide_eq_true_eq] at hr
        simp [List.takeWhile, hr]
    rw [List.takeWhile_append, if_pos hlen, hbtake, List.append_nil]
  have hdrop : (nm ++ rest).dropWhile isNameChar = rest := by
    rw [List.dropWhile_append]
    have : nm.dropWhile isNameChar = [] := List.dropWhile_eq_nil_iff.mpr hnm
    rw [this]
    simp only [List.isEmpty_nil, if_pos rfl]
    match rest with
    | [] => rfl
    | d :: b' =>
      simp only [headNotName, decide_eq_true_eq] at hr
      simp [List.dropWhile, hr]
  rw [htake, hdrop]

/-! ## Decimal rendering: `Nat.repr` produces digits and is injective -/

/-- `Nat.digitChar` of a value below ten is a decimal digit. -/
theorem digitChar_isDigit : ∀ n, n < 10 → (Nat.digitChar n).isDigit = true := by
  decide

/-- Every character `Nat.toDigitsCore` emits (base ten) is a digit, provided
the accumulator holds only digits. -/
theorem toDigitsCore_digits :
    ∀ (fuel n : Nat) (ds : List Char), (∀ c ∈ ds, c.isDigit = true) →
      ∀ c ∈ Nat.toDigitsCore 10 fuel n ds, c.isDigit = true := by
  intro fuel
  induction fuel with
  | zero =>
    intro n ds hds c hc
    rw [Nat.toDigitsCore] at hc
    exact hds c hc
  | succ fuel ih =>
    intro n ds hds c hc
    rw [Nat.toDigitsCore] at hc
    by_cases h : n / 10 = 0
    · rw [if_pos h] at hc
      rcases List.mem_cons.mp hc with h1 | h1
      · subst h1
        exact digitChar_isDigit _ (Nat.mod_lt _ (by omega))
      · exact hds c h1
    · rw [if_neg h] at hc
      refine ih _ _ ?_ c hc
      intro x hx
      rcases List.mem_cons.mp hx with h1 | h1
      · subst h1
        exact digitChar_isDigit _ (Nat.mod_lt _ (by omega))
      · exact hds x h1

/-- Every character of `Nat.repr n` is a decimal digit. -/
theorem repr_digits (n : Nat) : ∀ c ∈ (Nat.repr n).data, c.isDigit = true := by
  intro c hc
  exact toDigitsCore_digits (n + 1) n [] (by simp) c hc

/-- `Nat.toDigitsCore` only prepends to its accumulator. -/
theorem toDigitsCore_acc :
    ∀ (fuel n : Nat) (ds : List Char),
      Nat.toDigitsCore 10 fuel n ds = Nat.toDigitsCore 10 fuel n [] ++ ds := by
  intro fuel
  induction fuel with
  | zero => intro n ds; rw [Nat.toDigitsCore, Nat.toDigitsCore]; simp
  | succ fuel ih =>
    intro n ds
    rw [Nat.toDigitsCore]
    conv_rhs => rw [Nat.toDigitsCore]
    by_cases h : n / 10 = 0
    · rw [if_pos h, if_pos h]
      simp
    · rw [if_neg h, if_neg h, ih _ [Nat.digitChar (n % 10)],
        ih _ (Nat.digitChar (n % 10) :: ds)]
      simp

/-- Decimal value of a digit string (used only to invert `Nat.repr`). -/
def digitsVal (cs : List Char) : Nat :=
  cs.foldl (fun a c => 10 * a + (c.toNat - 48)) 0

/-- `digitsVal` over an appended final digit. -/
theorem digitsVal_append (xs : List Char) (c : Char) :
    digitsVal (xs ++ [c]) = 10 * digitsVal xs + (c.toNat - 48) := by
  unfold digitsVal
  rw [List.foldl_append]
  rfl

/-- `digitChar` round-trips through the character code for values below
ten. -/
theorem digitChar_val : ∀ m, m < 10 → (Nat.digitChar m).toNat - 48 = m := by
  decide

/-- With enough fuel, `digitsVal` inverts `Nat.toDigitsCore 10`. -/
theorem digitsVal_toDigitsCore :
    ∀ (fuel n : Nat), n < fuel → digitsVal (Nat.toDigitsCore 10 fuel n []) = n := by
  intro fuel
  induction fuel with
  | zero => omega
  | succ fuel ih =>
    intro n hn
    rw [Nat.toDigitsCore]
    by_cases h : n / 10 = 0
    · rw [if_pos h]
      have hlt : n < 10 := by omega
      have : digitsVal [Nat.digitChar (n % 10)] = (Nat.digitChar (n % 10)).toNat - 48 := by
        unfold digitsVal
        simp
      rw [this, digitChar_val _ (Nat.mod_lt _ (by omega))]
      omega
    · rw [if_neg h, toDigitsCore_acc, digitsVal_append]
      have hrec : n / 10 < fuel := by
        have h1 : n / 10 < n := Nat.div_lt_self (by omega) (by omega)
        omega
      rw [ih _ hrec, digitChar_val _ (Nat.mod_lt _ (by omega))]
      have := Nat.div_add_mod n 10
      omega

/-- `Nat.repr` is injective. -/
theorem repr_injective : Function.Injective Nat.repr := by
  intro a b h
  have hdata : (Nat.toDigits 10 a) = (Nat.toDigits 10 b) := by
    have := congrArg String.data h
    simpa [Nat.repr, List.asString] using this
  have ha : digitsVal (Nat.toDigits 10 a) = a :=
    digitsVal_toDigitsCore (a + 1) a (by omega)
  have hb : digitsVal (Nat.toDigits 10 b) = b :=
    digitsVal_toDigitsCore (b + 1) b (by omega)
  rw [← ha, ← hb, hdata]

/-- Parameter names are pairwise distinct across counter values. -/
theorem paramName_injective : Function.Injective paramName := by
  intro a b h
  have hdata := congrArg String.data h
  simp only [paramName, String.data_append] at hdata
  have := List.append_cancel_left hdata
  exact repr_injective (String.ext this)

/-- Every character of `Nat.repr n` is a name character and not a dollar
sign (digits are alphanumeric). -/
theorem repr_nameChar (n : Nat) :
    (∀ c ∈ (Nat.repr n).data, isNameChar c = true) ∧ (∀ c ∈ (Nat.repr n).data, c ≠ '$') := by
  constructor
  · intro c hc
    have := repr_digits n c hc
    simp [isNameChar, Char.isAlphanum, this]
  · intro c hc heq
    have := repr_digits n c hc
    subst heq
    simp [Char.isDigit] at this

/-- Every character of a parameter name is a name character. -/
theorem paramName_nameChar (n : Nat) : ∀ c ∈ (paramName n).data, isNameChar c = true := by
  intro c hc
  simp only [paramName, String.data_append] at hc
  rcases List.mem_append.mp hc with h | h
  · fin_cases h <;> decide
  · exact (repr_nameChar n).1 c h

/-- Bridge from the executable `dollarFree` to the propositional form. -/
theorem dollarFree_spec {s : String} (h : dollarFree s = true) : ∀ c ∈ s.data, c ≠ '$' := by
  simpa [dollarFree, List.all_eq_true] using h

/-- Rebuilding a string from its characters gives the string back. -/
theorem mk_data (s : String) : String.mk s.data = s := String.ext rfl

mutual

/-- All field and operator strings of a condition tree are `$`-free (the
values never reach the query text, only the parameter map, so they are
unconstrained). -/
def condDollarFree : Condition → Bool
  | .q f op _ =>
    dollarFree f &&
      (match op with
       | some o => dollarFree o
       | none => true)
  | .and cs => condListDollarFree cs
  | .or cs => condListDollarFree cs
  | .not c => condDollarFree c

/-- `condDollarFree` over a child list. -/
def condListDollarFree : List Condition → Bool
  | [] => true
  | c :: cs => condDollarFree c && condListDollarFree cs

end

/-- What `condToCypher` guarantees for a `$`-free condition compiled at
counter `n`: the counter does not decrease, the parameter keys are exactly
`param_n .. param_{n'-1}` in order, and relative to any continuation that
does not begin with a name character the fragment contributes exactly those
keys as `$` tokens. -/
def CondM1 (cond : Condition) (n : Nat) : Prop :=
  ∀ ⦃f : String⦄ ⦃ps : List (String × Value)⦄ ⦃n' : Nat⦄,
    condDollarFree cond = true →
    condToCypher cond n = .ok (f, ps, n') →
    n ≤ n' ∧
    ps.map Prod.fst = (List.range' n (n' - n)).map paramName ∧
    (∀ rest, headNotName rest = true →
      extractTokensAux (f.data ++ rest) = ps.map Prod.fst ++ extractTokensAux rest)

/-- The analogue of `CondM1` for the child loop: one fragment per child, and
the parenthesis-wrapped fragments joined by any `$`-free separator contribute
exactly the parameter keys as tokens. -/
def CondM2 (cs : List Condition) (n : Nat) : Prop :=
  ∀ ⦃fs : List String⦄ ⦃ps : List (String × Value)⦄ ⦃n' : Nat⦄,
    condListDollarFree cs = true →
    condListToCypher cs n = .ok (fs, ps, n') →
    n ≤ n' ∧
    fs.length = cs.length ∧
    ps.map Prod.fst = (List.range' n (n' - n)).map paramName ∧
    (∀ sep rest, (∀ c ∈ sep.data, c ≠ '$') → headNotName rest = true →
      extractTokensAux ((joinSep sep (fs.map (fun f => "(" ++ f ++ ")"))).data ++ rest)
        = ps.map Prod.fst ++ extractTokensAux rest)

/-- `do`-unfolding for `Except`: bind of a success. -/
theorem exceptBindOk {e a b : Type} (x : a) (f : a → Except e b) :
    (Except.ok x >>= f) = f x := rfl

/-- `do`-unfolding for `Except`: bind of a failure. -/
theorem exceptBindErr {e a b : Type} (err : e) (f : a → Except e b) :
    ((Except.error err : Except e a) >>= f) = Except.error err := rfl

/-- `headNotName` holds for any list starting with a non-name character. -/
theorem headNotName_cons {c : Char} (h : isNameChar c = false) (l : List Char) :
    headNotName (c :: l) = true := by
  simp [headNotName, h]

/-- Master specification of `Condition.to_cypher` on `$`-free conditions:
counter monotone, parameter keys are exactly the fresh names
`param_n .. param_{n'-1}` in order, and the fragment contributes exactly
those `$` tokens. -/
theorem condToCypher_spec : ∀ (cond : Condition) (n : Nat), CondM1 cond n := by
  refine condToCypher.induct CondM1 CondM2 ?_ ?_ ?_ ?_ ?_ ?_ ?_ ?_ ?_ ?_
  · -- Q with operator None: always ValueError
    intro fld v n
    intro f ps n' _ heq
    simp [condToCypher] at heq
  · -- Q with a null-check operator: no parameter
    intro fld v n o ho
    intro f ps n' hdf heq
    simp only [condToCypher, if_pos ho, Except.ok.injEq, Prod.mk.injEq] at heq
    obtain ⟨rfl, rfl, rfl⟩ := heq
    simp only [condDollarFree, Bool.and_eq_true] at hdf
    obtain ⟨hdf1, hdf2⟩ := hdf
    have hdo : dollarFree o = true := by simpa using hdf2
    refine ⟨Nat.le_refl _, by simp, ?_⟩
    intro rest hr
    have ha : ∀ c ∈ (fld ++ " " ++ o).data, c ≠ '$' := by
      intro c hc
      simp only [String.data_append] at hc
      rcases List.mem_append.mp hc with h1 | h1
      · rcases List.mem_append.mp h1 with h2 | h2
        · exact dollarFree_spec hdf1 c h2
        · simp at h2
          subst h2
          decide
      · exact dollarFree_spec hdo c h1
    rw [extractAux_skip _ ha]
    simp
  · -- Q with a parameter-binding operator
    intro fld v n o ho
    intro f ps n' hdf heq
    simp only [condToCypher, if_neg ho, Except.ok.injEq, Prod.mk.injEq] at heq
    obtain ⟨rfl, rfl, rfl⟩ := heq
    simp only [condDollarFree, Bool.and_eq_true] at hdf
    obtain ⟨hdf1, hdf2⟩ := hdf
    have hdo : dollarFree o = true := by simpa using hdf2
    refine ⟨by omega, ?_, ?_⟩
    · have h1 : n + 1 - n = 1 := by omega
      rw [h1]
      simp [List.range']
    · intro rest hr
      have e : (fld ++ " " ++ o ++ " $" ++ paramName n).data ++ rest =
          (fld.data ++ ' ' :: (o.data ++ [' '])) ++
            ('$' :: ((paramName n).data ++ rest)) := by
        simp [String.data_append]
      rw [e]
      have ha : ∀ c ∈ fld.data ++ ' ' :: (o.data ++ [' ']), c ≠ '$' := by
        intro c hc
        rcases List.mem_append.mp hc with h1 | h1
        · exact dollarFree_spec hdf1 c h1
        · rcases List.mem_cons.mp h1 with h2 | h2
          · subst h2; decide
          · rcases List.mem_append.mp h2 with h3 | h3
            · exact dollarFree_spec hdo c h3
            · simp at h3; subst h3; decide
      rw [extractAux_skip _ ha,
          extractAux_token rest (paramName_nameChar n) hr, mk_data]
      simp
  · -- And of zero children
    intro n
    intro f ps n' _ heq
    simp only [condToCypher, Except.ok.injEq, Prod.mk.injEq] at heq
    obtain ⟨rfl, rfl, rfl⟩ := heq
    refine ⟨Nat.le_refl _, by simp, ?_⟩
    intro rest hr
    rw [extractAux_skip _ (by decide)]
    simp
  · -- And of one or more children
    intro n c1 crest ih2
    intro f ps n' hdf heq
    simp only [condDollarFree] at hdf
    simp only [condToCypher] at heq
    cases hl : condListToCypher (c1 :: crest) n with
    | error e =>
      rw [hl, exceptBindErr] at heq
      exact Except.noConfusion heq
    | ok t =>
      obtain ⟨fs, ps0, c'⟩ := t
      rw [hl] at heq
      simp only [exceptBindOk, Except.ok.injEq, Prod.mk.injEq] at heq
      obtain ⟨rfl, rfl, rfl⟩ := heq
      obtain ⟨hle, _, hkeys, hjoin⟩ := ih2 hdf hl
      exact ⟨hle, hkeys, fun r hr => hjoin " AND " r (by decide) hr⟩
  · -- Or of zero children
    intro n
    intro f ps n' _ heq
    simp only [condToCypher, Except.ok.injEq, Prod.mk.injEq] at heq
    obtain ⟨rfl, rfl, rfl⟩ := heq
    refine ⟨Nat.le_refl _, by simp, ?_⟩
    intro rest hr
    rw [extractAux_skip _ (by decide)]
    simp
  · -- Or of one or more children: the joined fragments get outer parens
    intro n c1 crest ih2
    intro f ps n' hdf heq
    simp only [condDollarFree] at hdf
    simp only [condToCypher] at heq
    cases hl : condListToCypher (c1 :: crest) n with
    | error e =>
      rw [hl, exceptBindErr] at heq
      exact Except.noConfusion heq
    | ok t =>
      obtain ⟨fs, ps0, c'⟩ := t
      rw [hl] at heq
      simp only [exceptBindOk, Except.ok.injEq, Prod.mk.injEq] at heq
      obtain ⟨rfl, rfl, rfl⟩ := heq
      obtain ⟨hle, _, hkeys, hjoin⟩ := ih2 hdf hl
      refine ⟨hle, hkeys, ?_⟩
      intro r hr
      have e : ("(" ++ joinSep " OR " (fs.map (fun f => "(" ++ f ++ ")")) ++ ")").data ++ r =
          '(' :: ((joinSep " OR " (fs.map (fun f => "(" ++ f ++ ")"))).data ++ (')' :: r)) := by
        simp [String.data_append]
      rw [e, extract_cons_skip (by decide),
          hjoin " OR " (')' :: r) (by decide) (headNotName_cons (by decide) r),
          extract_cons_skip (by decide)]
  · -- Not
    intro c1 n ih1
    intro f ps n' hdf heq
    simp only [condDollarFree] at hdf
    simp only [condToCypher] at heq
    cases hc : condToCypher c1 n with
    | error e =>
      rw [hc, exceptBindErr] at heq
      exact Except.noConfusion heq
    | ok t =>
      obtain ⟨f1, ps1, c'⟩ := t
      rw [hc] at heq
      simp only [exceptBindOk, Except.ok.injEq, Prod.mk.injEq] at heq
      obtain ⟨rfl, rfl, rfl⟩ := heq
      obtain ⟨hle, hkeys, htok⟩ := ih1 hdf hc
      refine ⟨hle, hkeys, ?_⟩
      intro r hr
      have e : ("NOT (" ++ f1 ++ ")").data ++ r =
          "NOT (".data ++ (f1.data ++ (')' :: r)) := by
        simp [String.data_append]
      rw [e, extractAux_skip _ (by decide),
          htok (')' :: r) (headNotName_cons (by decide) r),
          extract_cons_skip (by decide)]
  · -- empty child list
    intro n
    intro fs ps n' _ heq
    simp only [condListToCypher, Except.ok.injEq, Prod.mk.injEq] at heq
    obtain ⟨rfl, rfl, rfl⟩ := heq
    refine ⟨Nat.le_refl _, rfl, by simp, ?_⟩
    intro sep r _ hr
    simp [joinSep]
  · -- child list cons
    intro x xs n ih1 ih2
    intro fs ps n' hdf heq
    simp only [condListDollarFree, Bool.and_eq_true] at hdf
    obtain ⟨hdx, hdxs⟩ := hdf
    simp only [condListToCypher] at heq
    cases hx : condToCypher x n with
    | error e =>
      rw [hx, exceptBindErr] at heq
      exact Except.noConfusion heq
    | ok t1 =>
      obtain ⟨f1, ps1, c1⟩ := t1
      rw [hx] at heq
      simp only [exceptBindOk] at heq
      cases hxs : condListToCypher xs c1 with
      | error e =>
        rw [hxs, exceptBindErr] at heq
        exact Except.noConfusion heq
      | ok t2 =>
        obtain ⟨fs2, ps2, c2⟩ := t2
        rw [hxs] at heq
        simp only [exceptBindOk, Except.ok.injEq, Prod.mk.injEq] at heq
        obtain ⟨rfl, rfl, rfl⟩ := heq
        obtain ⟨hle1, hkeys1, htok1⟩ := ih1 hdx hx
        obtain ⟨hle2, hlen2, hkeys2, hjoin2⟩ := ih2 c1 hdxs hxs
        refine ⟨by omega, by simp [hlen2], ?_, ?_⟩
        · rw [List.map_append, hkeys1, hkeys2, ← List.map_append]
          congr 1
          have hr' := List.range'_append n (c1 - n) (c2 - c1) 1
          have e1 : n + 1 * (c1 - n) = c1 := by omega
          have e2 : (c2 - c1) + (c1 - n) = c2 - n := by omega
          rw [e1, e2] at hr'
          exact hr'
        · intro sep r hsep hr
          cases fs2 with
          | nil =>
            have hxs0 : xs = [] := by
              have : xs.length = 0 := by simpa using hlen2.symm
              exact List.length_eq_zero.mp this
            subst hxs0
            simp only [condListToCypher, Except.ok.injEq, Prod.mk.injEq] at hxs
            obtain ⟨-, rfl, rfl⟩ := hxs
            simp only [List.map_cons, List.map_nil, joinSep]
            have e : ("(" ++ f1 ++ ")").data ++ r = '(' :: (f1.data ++ (')' :: r)) := by
              simp [String.data_append]
            rw [e, extract_cons_skip (by decide),
                htok1 (')' :: r) (headNotName_cons (by decide) r),
                extract_cons_skip (by decide)]
            simp
          | cons g gs =>
            have e : (joinSep sep
                (((f1 :: g :: gs).map (fun f => "(" ++ f ++ ")")))).data ++ r =
                '(' :: (f1.data ++ (')' ::
                  (sep.data ++
                    ((joinSep sep ((g :: gs).map (fun f => "(" ++ f ++ ")"))).data ++ r)))) := by
              simp only [List.map_cons, joinSep, String.data_append]
              simp
            rw [e, extract_cons_skip (by decide),
                htok1 _ (headNotName_cons (by decide) _),
                extract_cons_skip (by decide),
                extractAux_skip _ hsep,
                hjoin2 sep r hsep hr]
            simp

/-- Bool-level converse of `dollarFree_spec`. -/
theorem dollarFree_of_spec {s : String} (h : ∀ c ∈ s.data, c ≠ '$') : dollarFree s = true := by
  simpa [dollarFree, List.all_eq_true] using h

/-- A `$`-free string contributes no tokens. -/
theorem tokens_of_df {p : String} (h : dollarFree p = true) : extractTokensAux p.data = [] :=
  extractAux_eq_nil (dollarFree_spec h)

/-- `$`-freeness distributes over append. -/
theorem dollarFree_append (a b : String) :
    dollarFree (a ++ b) = (dollarFree a && dollarFree b) := by
  simp [dollarFree, String.data_append, List.all_append]

/-- `$`-freeness is preserved by joining `$`-free parts. -/
theorem joinSep_df {sep : String} (hsep : dollarFree sep = true) :
    ∀ (l : List String), (∀ x ∈ l, dollarFree x = true) → dollarFree (joinSep sep l) = true := by
  intro l
  induction l with
  | nil => intro _; rw [joinSep]; rfl
  | cons x xs ih =>
    intro hl
    cases xs with
    | nil => rw [joinSep]; exact hl x (by simp)
    | cons y ys =>
      have hjoin : joinSep sep (x :: y :: ys) = x ++ sep ++ joinSep sep (y :: ys) := rfl
      rw [hjoin, dollarFree_append, dollarFree_append,
        hl x (by simp), hsep, ih (fun z hz => hl z (by simp [hz]))]
      rfl

/-- `Nat.repr` is `$`-free. -/
theorem repr_df (n : Nat) : dollarFree (Nat.repr n) = true :=
  dollarFree_of_spec (repr_nameChar n).2

/-- All node-type values are `$`-free. -/
theorem nodeTypeValues_df : ∀ s ∈ nodeTypeValues, dollarFree s = true := by decide

/-- All lowercased node-type values are `$`-free. -/
theorem nodeTypeValues_lower_df : ∀ s ∈ nodeTypeValues, dollarFree (strLower s) = true := by
  decide

/-- All relationship-type values are `$`-free. -/
theorem relTypeValues_df : ∀ s ∈ relTypeValues, dollarFree s = true := by decide

/-- The auto-generated alias is `$`-free whenever its base is. -/
theorem genAliasAux_df {base : String} (hb : dollarFree base = true) (defined : List String) :
    ∀ (fuel k : Nat), dollarFree (genAliasAux base defined fuel k) = true := by
  intro fuel
  induction fuel with
  | zero =>
    intro k
    rw [genAliasAux]
    split
    · exact hb
    · rw [dollarFree_append, dollarFree_append, hb, repr_df]
      rfl
  | succ fuel ih =>
    intro k
    rw [genAliasAux]
    split <;> split
    · exact ih (k + 1)
    · exact hb
    · exact ih (k + 1)
    · rw [dollarFree_append, dollarFree_append, hb, repr_df]
      rfl

/-- `genAlias` preserves `$`-freeness of the base. -/
theorem genAlias_df {base : String} (hb : dollarFree base = true) (defined : List String) :
    dollarFree (genAlias base defined) = true :=
  genAliasAux_df hb defined _ 0

/-- Members of the WITH projection come from the group-by or return lists. -/
theorem withFields_mem {x : String} :
    ∀ {gb rs : List String}, x ∈ withFields gb rs → x ∈ gb ∨ x ∈ rs := by
  have main : ∀ (rs acc : List String), x ∈ rs.foldl
      (fun acc f => if ¬ isAggField f ∧ ¬ acc.contains f then acc ++ [f] else acc) acc →
      x ∈ acc ∨ x ∈ rs := by
    intro rs
    induction rs with
    | nil => intro acc h; exact Or.inl h
    | cons r rs ih =>
      intro acc h
      simp only [List.foldl_cons] at h
      rcases ih _ h with h1 | h1
      · by_cases hcond : ¬ isAggField r ∧ ¬ acc.contains r
        · rw [if_pos hcond] at h1
          rcases List.mem_append.mp h1 with h2 | h2
          · exact Or.inl h2
          · simp at h2
            subst h2
            exact Or.inr (by simp)
        · rw [if_neg hcond] at h1
          exact Or.inl h1
      · exact Or.inr (by simp [h1])
  intro gb rs h
  exact main rs gb h

/-- The `$`-free side condition on one builder call: every caller-supplied
string that can reach the query text (aliases, filter property names,
condition fields and operators, return / group / order field expressions) is
`$`-free.  Filter and condition values are unconstrained: they only ever
reach the parameter map. -/
def callDollarFree : BuilderCall → Bool
  | .find _ a filters =>
    (match a with | some x => dollarFree x | none => true) &&
      filters.all (fun pv => dollarFree pv.1)
  | .withRel _ _ _ a _ _ =>
    (match a with | some x => dollarFree x | none => true)
  | .whereCond c => condDollarFree c
  | .returnFields fs => fs.all dollarFree
  | .orderBy fs => fs.all dollarFree
  | .groupBy fs => fs.all dollarFree
  | .havingCond c => condDollarFree c
  | .limit _ => true
  | .skip _ => true

/-- The builder-session invariant carried through `$`-free call sequences:
the MATCH clauses contribute exactly the filter-parameter keys as tokens (in
order), the filter-parameter keys are exactly `param_0 .. param_{counter-1}`,
and every string that later compilation can copy into the query text is
`$`-free. -/
structure SInv (s : BuilderState) : Prop where
  hMatch : (s.match_clauses.map (fun p => extractTokensAux p.data)).flatten
      = s.filter_params.map Prod.fst
  hKeys : s.filter_params.map Prod.fst = (List.range' 0 s.param_counter).map paramName
  hWhere : ∀ c ∈ s.where_conditions, condDollarFree c = true
  hHaving : ∀ c ∈ s.having_conditions, condDollarFree c = true
  hRet : ∀ f ∈ s.return_fields, dollarFree f = true
  hGroup : ∀ f ∈ s.group_by, dollarFree f = true
  hOrder : ∀ f ∈ s.order_by, dollarFree f = true
  hAliases : ∀ a ∈ s.defined_aliases, dollarFree a = true

/-- The fresh session satisfies the invariant. -/
theorem SInv_init : SInv initState := by
  constructor <;> simp [initState]

/-- Without the reserved keys, `dict_to_condition` is exactly its
field-iteration loop. -/
theorem dtc_no_reserved {d : List (String × Value)} (hA : d.lookup "AND" = none)
    (hO : d.lookup "OR" = none) (hN : d.lookup "NOT" = none) :
    dict_to_condition d = dictFields d := by
  rw [dict_to_condition, hA, hO, hN]

/-- Specification of the filter loop of `find` when every value passes the
injection guard: one parameter per filter with consecutive fresh names, and
the joined `prop: $param_i` fragments contribute exactly those names as
tokens. -/
theorem processFilters_spec :
    ∀ (filters : List (String × Value)) (n : Nat) ⦃parts : List String⦄
      ⦃params : List (String × Value)⦄ ⦃n' : Nat⦄,
      (∀ pv ∈ filters, dollarFree pv.1 = true) →
      processFilters filters n = (parts, params, n', none) →
      n' = n + filters.length ∧
      parts.length = filters.length ∧
      params.map Prod.fst = (List.range' n filters.length).map paramName ∧
      (∀ rest, headNotName rest = true →
        extractTokensAux ((joinSep ", " parts).data ++ rest)
          = params.map Prod.fst ++ extractTokensAux rest) := by
  intro filters
  induction filters with
  | nil =>
    intro n parts params n' _ heq
    simp only [processFilters, Prod.mk.injEq] at heq
    obtain ⟨rfl, rfl, rfl, -⟩ := heq
    refine ⟨by simp, rfl, by simp, ?_⟩
    intro rest hr
    have : (joinSep ", " []).data = [] := rfl
    rw [this]
    simp
  | cons pv rest ih =>
    intro n parts params n' hdf heq
    obtain ⟨prop, v⟩ := pv
    simp only [processFilters] at heq
    cases hv : validate_cypher_injection v with
    | some pat =>
      rw [hv] at heq
      simp at heq
    | none =>
      rw [hv] at heq
      rcases hpf : processFilters rest (n + 1) with ⟨parts2, params2, n2, e2⟩
      rw [hpf] at heq
      simp only [Prod.mk.injEq] at heq
      obtain ⟨rfl, rfl, rfl, he⟩ := heq
      have he2 : e2 = none := by
        cases e2
        · rfl
        · exact absurd he.symm (by simp)
      subst he2
      have hdrest : ∀ pv ∈ rest, dollarFree pv.1 = true :=
        fun x hx => hdf x (by simp [hx])
      obtain ⟨hn2, hlen, hkeys, htok⟩ := ih (n + 1) hdrest hpf
      have hdprop : dollarFree prop = true := hdf (prop, v) (by simp)
      refine ⟨by simp; omega, by simp [hlen], ?_, ?_⟩
      · simp only [List.map_cons, hkeys]
        have h1 : ((prop, v) :: rest).length = rest.length + 1 := rfl
        have h2 : List.range' n (rest.length + 1) = n :: List.range' (n + 1) rest.length := rfl
        rw [h1, h2, List.map_cons]
      · intro r0 hr0
        cases parts2 with
        | nil =>
          have hrest0 : rest = [] := List.length_eq_zero.mp (by simpa using hlen.symm)
          subst hrest0
          have hparams2 : params2 = [] := by
            have := hkeys
            simp at this
            exact this
          subst hparams2
          have hjoin1 : joinSep ", " [prop ++ ": $" ++ paramName n] = prop ++ ": $" ++ paramName n := rfl
          rw [hjoin1]
          have e : (prop ++ ": $" ++ paramName n).data ++ r0 =
              prop.data ++ (':' :: (' ' :: ('$' :: ((paramName n).data ++ r0)))) := by
            simp [String.data_append]
          rw [e, extractAux_skip _ (dollarFree_spec hdprop),
              extract_cons_skip (by decide), extract_cons_skip (by decide),
              extractAux_token r0 (paramName_nameChar n) hr0, mk_data]
          simp
        | cons q qs =>
          have hjoin2 : joinSep ", " ((prop ++ ": $" ++ paramName n) :: q :: qs) =
              (prop ++ ": $" ++ paramName n) ++ ", " ++ joinSep ", " (q :: qs) := rfl
          rw [hjoin2]
          have e : ((prop ++ ": $" ++ paramName n) ++ ", " ++ joinSep ", " (q :: qs)).data ++ r0 =
              prop.data ++ (':' :: (' ' :: ('$' :: ((paramName n).data ++
                (',' :: (' ' :: ((joinSep ", " (q :: qs)).data ++ r0))))))) := by
            simp [String.data_append]
          rw [e, extractAux_skip _ (dollarFree_spec hdprop),
              extract_cons_skip (by decide), extract_cons_skip (by decide),
              extractAux_token _ (paramName_nameChar n) (headNotName_cons (by decide) _),
              mk_data,
              extract_cons_skip (by decide), extract_cons_skip (by decide),
              htok r0 hr0]
          simp

/-- Bridge from `List.contains` to membership (strings). -/
theorem contains_mem {l : List String} {x : String} (h : l.contains x = true) : x ∈ l := by
  simpa using h

/-- Inversion of `validate_node_type` success. -/
theorem validate_node_type_ok {nt tval : String} (h : validate_node_type nt = .ok tval) :
    tval = nt ∧ nt ∈ nodeTypeValues := by
  unfold validate_node_type at h
  by_cases hc : nodeTypeValues.contains nt
  · rw [if_pos hc] at h
    exact ⟨(Except.ok.injEq _ _).mp h |>.symm, contains_mem hc⟩
  · rw [if_neg hc] at h
    exact absurd h (by simp)

/-- Inversion of `validate_relationship_type` success. -/
theorem validate_relationship_type_ok {rt tval : String}
    (h : validate_relationship_type rt = .ok tval) :
    tval = rt ∧ rt ∈ relTypeValues := by
  unfold validate_relationship_type at h
  by_cases hc : relTypeValues.contains rt
  · rw [if_pos hc] at h
    exact ⟨(Except.ok.injEq _ _).mp h |>.symm, contains_mem hc⟩
  · rw [if_neg hc] at h
    exact absurd h (by simp)

/-- A successful registered-core `find` preserves the session invariant when
the alias and the filter property names are `$`-free. -/
theorem findRegistered_SInv {s : BuilderState} (hs : SInv s) {tval a : String}
    {filters : List (String × Value)} {s' : BuilderState}
    (hdtval : dollarFree tval = true)
    (hdalias : dollarFree a = true)
    (hdf : ∀ pv ∈ filters, dollarFree pv.1 = true)
    (heq : findRegistered s tval a filters = (s', none)) : SInv s' := by
  unfold findRegistered register_alias at heq
  by_cases hreg : s.defined_aliases.contains a
  · rw [if_pos hreg] at heq
    simp at heq
  · rw [if_neg hreg] at heq
    rcases hpf : processFilters filters s.param_counter with ⟨parts, params, n', e⟩
    simp only [hpf] at heq
    cases e with
    | some err => simp at heq
    | none =>
      simp only [Prod.mk.injEq] at heq
      obtain ⟨rfl, -⟩ := heq
      obtain ⟨hn', hlen, hkeys, htok⟩ := processFilters_spec filters s.param_counter hdf hpf
      constructor
      · -- hMatch
        simp only [List.map_append, List.flatten_append, hs.hMatch]
        cases filters with
        | nil =>
          have hparams : params = [] := by
            have := hkeys
            simp at this
            exact this
          subst hparams
          have hdcl : dollarFree ("MATCH " ++ ("(" ++ a ++ ":" ++ tval ++ ")")) = true := by
            simp only [dollarFree_append, hdalias, hdtval]
            decide
          have hcl := tokens_of_df hdcl
          simp only [String.data_append] at hcl
          simp only [List.isEmpty_nil, if_true, List.map_cons, List.map_nil,
            List.flatten_cons, List.flatten_nil, List.append_nil]
          simp only [List.cons_append, List.nil_append, List.append_assoc] at hcl
          simpa using hcl
        | cons f0 fs0 =>
          have hne : ((f0 :: fs0 : List (String × Value)).isEmpty) = false := rfl
          rw [hne]
          simp only [Bool.false_eq_true, if_false, List.map_cons, List.map_nil,
            List.flatten_cons, List.flatten_nil, List.append_nil]
          have e2 : ("MATCH " ++ ("(" ++ a ++ ":" ++ tval ++ " \x7b" ++
              joinSep ", " parts ++ "\x7d)")).data =
              "MATCH ".data ++ ("(".data ++ (a.data ++ (":".data ++ (tval.data ++
                (" \x7b".data ++ ((joinSep ", " parts).data ++ "\x7d)".data)))))) := by
            simp [String.data_append]
          rw [e2, extractAux_skip _ (by decide), extractAux_skip _ (by decide),
              extractAux_skip _ (dollarFree_spec hdalias), extractAux_skip _ (by decide),
              extractAux_skip _ (dollarFree_spec hdtval), extractAux_skip _ (by decide),
              htok _ (by decide)]
          have h3 : extractTokensAux "\x7d)".data = [] := by decide
          rw [h3, List.append_nil]
      · -- hKeys
        simp only [List.map_append, hs.hKeys, hkeys, hn']
        rw [← List.map_append]
        congr 1
        have hr' := List.range'_append 0 s.param_counter filters.length 1
        simpa [Nat.add_comm] using hr'
      · exact hs.hWhere
      · exact hs.hHaving
      · exact hs.hRet
      · exact hs.hGroup
      · exact hs.hOrder
      · -- hAliases
        intro x hx
        rcases List.mem_append.mp hx with h1 | h1
        · exact hs.hAliases x h1
        · simp at h1
          subst h1
          exact hdalias

/-- A successful `find` preserves the session invariant when the explicit
alias and the filter property names are `$`-free. -/
theorem findOp_SInv {s : BuilderState} (hs : SInv s) {nt : String} {a? : Option String}
    {filters : List (String × Value)} {s' : BuilderState}
    (hda : ∀ x, a? = some x → dollarFree x = true)
    (hdf : ∀ pv ∈ filters, dollarFree pv.1 = true)
    (heq : findOp s nt a? filters = (s', none)) : SInv s' := by
  unfold findOp at heq
  cases hv : validate_node_type nt with
  | error e => rw [hv] at heq; simp at heq
  | ok tval =>
    rw [hv] at heq
    obtain ⟨htv, hmem⟩ := validate_node_type_ok hv
    subst htv
    have hdtval : dollarFree tval = true := nodeTypeValues_df tval hmem
    cases a? with
    | some x =>
      exact findRegistered_SInv hs hdtval (hda x rfl) hdf heq
    | none =>
      exact findRegistered_SInv hs hdtval
        (genAlias_df (nodeTypeValues_lower_df tval hmem) _) hdf heq

/-- A successful `withRelCore` preserves the invariant: the appended MATCH
clause contains no `$`, the parameter state is untouched, and any newly
registered alias is `$`-free. -/
theorem withRelCore_SInv {s : BuilderState} (hs : SInv s) {rel_type from_alias : String}
    {to_node_type : Option String} {to_alias : String} {direction : String} {hops : Nat}
    {s' : BuilderState}
    (hdrel : dollarFree rel_type = true)
    (hdfrom : dollarFree from_alias = true)
    (hdto : dollarFree to_alias = true)
    (hdtype : ∀ t, to_node_type = some t → dollarFree t = true)
    (heq : withRelCore s rel_type from_alias to_node_type to_alias direction hops
      = (s', none)) : SInv s' := by
  have hdrelpat : dollarFree ("[:" ++ rel_type ++
      (if hops > 1 then "*1.." ++ Nat.repr hops else "") ++ "]") = true := by
    simp only [dollarFree_append, hdrel]
    have h2 : dollarFree (if hops > 1 then "*1.." ++ Nat.repr hops else "") = true := by
      split
      · rw [dollarFree_append, repr_df]
        decide
      · decide
    simp only [h2]
    decide
  have hclause : ∀ cl : String, dollarFree cl = true →
      ∀ s1 : BuilderState, SInv s1 →
      SInv { s1 with num_relationships := s1.num_relationships + 1,
                     match_clauses := s1.match_clauses ++ [cl] } := by
    intro cl hdcl s1 hs1
    constructor
    · simp only [List.map_append, List.flatten_append, hs1.hMatch, List.map_cons,
        List.map_nil, List.flatten_cons, List.flatten_nil, List.append_nil,
        tokens_of_df hdcl]
    · exact hs1.hKeys
    · exact hs1.hWhere
    · exact hs1.hHaving
    · exact hs1.hRet
    · exact hs1.hGroup
    · exact hs1.hOrder
    · exact hs1.hAliases
  cases to_node_type with
  | none =>
    unfold withRelCore at heq
    simp only [Prod.mk.injEq] at heq
    obtain ⟨rfl, -⟩ := heq
    split
    · refine hclause _ ?_ s hs
      simp only [dollarFree_append, hdto, hdrelpat, hdfrom]
      decide
    · split
      · refine hclause _ ?_ s hs
        simp only [dollarFree_append, hdto, hdrelpat, hdfrom]
        decide
      · refine hclause _ ?_ s hs
        simp only [dollarFree_append, hdto, hdrelpat, hdfrom]
        decide
  | some t =>
    have hdt : dollarFree t = true := hdtype t rfl
    unfold withRelCore register_alias at heq
    dsimp only at heq
    by_cases hcont : s.defined_aliases.contains to_alias
    · rw [if_pos hcont] at heq
      simp at heq
    · rw [if_neg hcont] at heq
      simp only [Prod.mk.injEq] at heq
      obtain ⟨rfl, -⟩ := heq
      have hs1 : SInv { s with defined_aliases := s.defined_aliases ++ [to_alias],
                               node_types := s.node_types ++ [(to_alias, t)] } := by
        constructor
        · exact hs.hMatch
        · exact hs.hKeys
        · exact hs.hWhere
        · exact hs.hHaving
        · exact hs.hRet
        · exact hs.hGroup
        · exact hs.hOrder
        · intro x hx
          rcases List.mem_append.mp hx with h3 | h3
          · exact hs.hAliases x h3
          · simp at h3
            subst h3
            exact hdto
      split
      · refine hclause _ ?_ _ hs1
        simp only [dollarFree_append, hdto, hdt, hdrelpat, hdfrom]
        decide
      · split
        · refine hclause _ ?_ _ hs1
          simp only [dollarFree_append, hdto, hdt, hdrelpat, hdfrom]
          decide
        · refine hclause _ ?_ _ hs1
          simp only [dollarFree_append, hdto, hdt, hdrelpat, hdfrom]
          decide

/-- A successful `withRelFrom` preserves the session invariant when the
explicit target alias is `$`-free. -/
theorem withRelFrom_SInv {s : BuilderState} (hs : SInv s) {rv : String}
    {fa? toT aN : Option String} {dir : String} {hops : Nat} {s' : BuilderState}
    (hrelmem : rv ∈ relTypeValues)
    (hda : ∀ x, aN = some x → dollarFree x = true)
    (heq : withRelFrom s rv fa? toT aN dir hops = (s', none)) : SInv s' := by
  have hdrel : dollarFree rv = true := relTypeValues_df rv hrelmem
  unfold withRelFrom at heq
  cases fa? with
  | none => simp at heq
  | some from_alias =>
    dsimp only at heq
    by_cases hcont : s.defined_aliases.contains from_alias
    · rw [if_neg (by simpa using hcont)] at heq
      have hdfrom : dollarFree from_alias = true :=
        hs.hAliases from_alias (contains_mem hcont)
      cases toT with
      | none =>
        dsimp only at heq
        cases aN with
        | some x =>
          exact withRelCore_SInv hs hdrel hdfrom (hda x rfl) (by simp) heq
        | none =>
          refine withRelCore_SInv hs hdrel hdfrom ?_ (by simp) heq
          rw [dollarFree_append, repr_df]
          decide
      | some t =>
        dsimp only at heq
        cases hvt : validate_node_type t with
        | error e =>
          rw [hvt] at heq
          dsimp only [Except.map] at heq
          simp at heq
        | ok tv =>
          rw [hvt] at heq
          obtain ⟨htv, htmem⟩ := validate_node_type_ok hvt
          subst htv
          dsimp only [Except.map] at heq
          cases aN with
          | some x =>
            refine withRelCore_SInv hs hdrel hdfrom (hda x rfl) ?_ heq
            intro t2 ht2
            simp at ht2
            subst ht2
            exact nodeTypeValues_df tv htmem
          | none =>
            refine withRelCore_SInv hs hdrel hdfrom
              (genAlias_df (nodeTypeValues_lower_df tv htmem) _) ?_ heq
            intro t2 ht2
            simp at ht2
            subst ht2
            exact nodeTypeValues_df tv htmem
    · rw [if_pos (by simpa using hcont)] at heq
      simp at heq

/-- A successful `with_relationship` preserves the session invariant when the
explicit target alias is `$`-free. -/
theorem with_relationship_SInv {s : BuilderState} (hs : SInv s) {rel : String}
    {toT fromN aN : Option String} {dir : String} {hops : Nat} {s' : BuilderState}
    (hda : ∀ x, aN = some x → dollarFree x = true)
    (heq : with_relationship s rel toT fromN aN dir hops = (s', none)) : SInv s' := by
  unfold with_relationship at heq
  cases hv : validate_relationship_type rel with
  | error e => rw [hv] at heq; simp at heq
  | ok rv =>
    rw [hv] at heq
    dsimp only at heq
    obtain ⟨hrv, hrelmem⟩ := validate_relationship_type_ok hv
    subst hrv
    exact withRelFrom_SInv hs hrelmem hda heq

/-- Each successful `$`-free builder call preserves the session invariant. -/
theorem applyCall_SInv {s : BuilderState} (hs : SInv s) {c : BuilderCall} {s' : BuilderState}
    (hdc : callDollarFree c = true) (heq : applyCall s c = (s', none)) : SInv s' := by
  cases c with
  | find nt a filters =>
    simp only [callDollarFree, Bool.and_eq_true] at hdc
    obtain ⟨hda, hdf⟩ := hdc
    refine findOp_SInv hs ?_ ?_ heq
    · intro x hx
      subst hx
      simpa using hda
    · intro pv hpv
      have := List.all_eq_true.mp hdf pv hpv
      simpa using this
  | withRel rel toT fromN aN dir hops =>
    simp only [callDollarFree] at hdc
    refine with_relationship_SInv hs ?_ heq
    intro x hx
    subst hx
    simpa using hdc
  | whereCond c0 =>
    simp only [callDollarFree] at hdc
    simp only [applyCall, Prod.mk.injEq] at heq
    obtain ⟨rfl, -⟩ := heq
    constructor
    · exact hs.hMatch
    · exact hs.hKeys
    · intro x hx
      rcases List.mem_append.mp hx with h1 | h1
      · exact hs.hWhere x h1
      · simp at h1
        subst h1
        exact hdc
    · exact hs.hHaving
    · exact hs.hRet
    · exact hs.hGroup
    · exact hs.hOrder
    · exact hs.hAliases
  | returnFields fs =>
    simp only [callDollarFree] at hdc
    simp only [applyCall] at heq
    cases hv : validate_return_fields s fs with
    | some e => rw [hv] at heq; simp at heq
    | none =>
      rw [hv] at heq
      simp only [Prod.mk.injEq] at heq
      obtain ⟨rfl, -⟩ := heq
      constructor
      · exact hs.hMatch
      · exact hs.hKeys
      · exact hs.hWhere
      · exact hs.hHaving
      · intro x hx
        have := List.all_eq_true.mp hdc x hx
        simpa using this
      · exact hs.hGroup
      · exact hs.hOrder
      · exact hs.hAliases
  | orderBy fs =>
    simp only [callDollarFree] at hdc
    simp only [applyCall] at heq
    cases hv : validate_order_by s fs with
    | some e => rw [hv] at heq; simp at heq
    | none =>
      rw [hv] at heq
      simp only [Prod.mk.injEq] at heq
      obtain ⟨rfl, -⟩ := heq
      constructor
      · exact hs.hMatch
      · exact hs.hKeys
      · exact hs.hWhere
      · exact hs.hHaving
      · exact hs.hRet
      · exact hs.hGroup
      · intro x hx
        have := List.all_eq_true.mp hdc x hx
        simpa using this
      · exact hs.hAliases
  | groupBy fs =>
    simp only [callDollarFree] at hdc
    simp only [applyCall] at heq
    cases hv : validate_return_fields s fs with
    | some e => rw [hv] at heq; simp at heq
    | none =>
      rw [hv] at heq
      simp only [Prod.mk.injEq] at heq
      obtain ⟨rfl, -⟩ := heq
      constructor
      · exact hs.hMatch
      · exact hs.hKeys
      · exact hs.hWhere
      · exact hs.hHaving
      · exact hs.hRet
      · intro x hx
        have := List.all_eq_true.mp hdc x hx
        simpa using this
      · exact hs.hOrder
      · exact hs.hAliases
  | havingCond c0 =>
    simp only [callDollarFree] at hdc
    simp only [applyCall, Prod.mk.injEq] at heq
    obtain ⟨rfl, -⟩ := heq
    constructor
    · exact hs.hMatch
    · exact hs.hKeys
    · exact hs.hWhere
    · intro x hx
      rcases List.mem_append.mp hx with h1 | h1
      · exact hs.hHaving x h1
      · simp at h1
        subst h1
        exact hdc
    · exact hs.hRet
    · exact hs.hGroup
    · exact hs.hOrder
    · exact hs.hAliases
  | limit n =>
    simp only [applyCall] at heq
    split at heq
    · simp at heq
    · simp only [Prod.mk.injEq] at heq
      obtain ⟨rfl, -⟩ := heq
      exact ⟨hs.hMatch, hs.hKeys, hs.hWhere, hs.hHaving, hs.hRet, hs.hGroup, hs.hOrder,
        hs.hAliases⟩
  | skip n =>
    simp only [applyCall] at heq
    split at heq
    · simp at heq
    · simp only [Prod.mk.injEq] at heq
      obtain ⟨rfl, -⟩ := heq
      exact ⟨hs.hMatch, hs.hKeys, hs.hWhere, hs.hHaving, hs.hRet, hs.hGroup, hs.hOrder,
        hs.hAliases⟩

/-- The invariant holds after any successful `$`-free call sequence. -/
theorem runFrom_SInv :
    ∀ (calls : List BuilderCall) (s s' : BuilderState), SInv s →
      (∀ c ∈ calls, callDollarFree c = true) →
      runFrom s calls = (s', none) → SInv s' := by
  intro calls
  induction calls with
  | nil =>
    intro s s' hs _ heq
    simp only [runFrom, Prod.mk.injEq] at heq
    obtain ⟨rfl, -⟩ := heq
    exact hs
  | cons c cs ih =>
    intro s s' hs hdc heq
    simp only [runFrom] at heq
    rcases hap : applyCall s c with ⟨s1, e1⟩
    rw [hap] at heq
    cases e1 with
    | some err => simp at heq
    | none =>
      exact ih s1 s' (applyCall_SInv hs (hdc c (by simp)) hap)
        (fun x hx => hdc x (by simp [hx])) heq

/-- Tokens of newline-joined parts are the concatenated per-part tokens (the
separator is inert). -/
theorem joinSep_newline_tokens : ∀ parts : List String,
    extractTokensAux (joinSep "\n" parts).data
      = (parts.map (fun p => extractTokensAux p.data)).flatten := by
  intro parts
  induction parts with
  | nil => rfl
  | cons x xs ih =>
    cases xs with
    | nil => simp [joinSep]
    | cons y ys =>
      have hj : joinSep "\n" (x :: y :: ys) = x ++ "\n" ++ joinSep "\n" (y :: ys) := rfl
      have e : (x ++ "\n" ++ joinSep "\n" (y :: ys)).data
          = x.data ++ ('\n' :: (joinSep "\n" (y :: ys)).data) := by
        simp [String.data_append]
      rw [hj, e, extractAux_append _ (headNotName_cons (by decide) _),
        extract_cons_skip (by decide), ih]
      simp

/-- Assembly of the final token/key accounting from the per-stage pieces:
MATCH clauses carry the filter keys, the optional WHERE line the
`param_{c0} .. param_{c0+a-1}` keys, the middle (WITH/HAVING/RETURN) lines
the `param_{c0+a} .. param_{c0+a+b-1}` keys, and the tail (ORDER BY, SKIP,
LIMIT) lines none; the parameter dict is assembled in update order
WHERE, HAVING, filters. -/
theorem assemble_tokens
    (mparts whereParts midParts tailParts : List String)
    (wps hps fps : List (String × Value)) (c0 a b : Nat)
    (hmatch : (mparts.map (fun p => extractTokensAux p.data)).flatten = fps.map Prod.fst)
    (hfkeys : fps.map Prod.fst = (List.range' 0 c0).map paramName)
    (hwtok : (whereParts.map (fun p => extractTokensAux p.data)).flatten = wps.map Prod.fst)
    (hwkeys : wps.map Prod.fst = (List.range' c0 a).map paramName)
    (hmtok : (midParts.map (fun p => extractTokensAux p.data)).flatten = hps.map Prod.fst)
    (hhkeys : hps.map Prod.fst = (List.range' (c0 + a) b).map paramName)
    (htail : ∀ p ∈ tailParts, extractTokensAux p.data = []) :
    ((wps ++ hps ++ fps).map Prod.fst).Nodup ∧
    (∀ k, k ∈ extractTokens (joinSep "\n" (mparts ++ whereParts ++ midParts ++ tailParts))
      ↔ k ∈ (wps ++ hps ++ fps).map Prod.fst) := by
  have htailtok : (tailParts.map (fun p => extractTokensAux p.data)).flatten = [] := by
    induction tailParts with
    | nil => rfl
    | cons p pt ih =>
      simp only [List.map_cons, List.flatten_cons, htail p (by simp),
        List.nil_append]
      exact ih (fun q hq => htail q (by simp [hq]))
  constructor
  · rw [List.map_append, List.map_append, hwkeys, hhkeys, hfkeys,
      ← List.map_append, ← List.map_append]
    refine List.Nodup.map paramName_injective ?_
    rw [List.nodup_append, List.nodup_append]
    refine ⟨⟨List.nodup_range' _ _, List.nodup_range' _ _, ?_⟩, List.nodup_range' _ _, ?_⟩
    · intro x hx hy
      simp only [List.mem_range'] at hx hy
      obtain ⟨i, hi, rfl⟩ := hx
      obtain ⟨j, hj, hji⟩ := hy
      omega
    · intro x hx hy
      simp only [List.mem_append, List.mem_range'] at hx hy
      obtain ⟨j, hj, hji⟩ := hy
      rcases hx with ⟨i, hi, rfl⟩ | ⟨i, hi, rfl⟩ <;> omega
  · intro k
    rw [extractTokens, joinSep_newline_tokens]
    simp only [List.map_append, List.flatten_append, hmatch, hwtok, hmtok, htailtok,
      List.append_nil, List.mem_append]
    constructor
    · rintro ((h | h) | h)
      · exact Or.inr h
      · exact Or.inl (Or.inl h)
      · exact Or.inl (Or.inr h)
    · rintro ((h | h) | h)
      · exact Or.inl (Or.inr h)
      · exact Or.inr h
      · exact Or.inl (Or.inl h)

/-- `condListDollarFree` from per-member `$`-freeness. -/
theorem condListDollarFree_of_forall :
    ∀ {cs : List Condition}, (∀ c ∈ cs, condDollarFree c = true) →
      condListDollarFree cs = true := by
  intro cs
  induction cs with
  | nil => intro _; rfl
  | cons c cs ih =>
    intro h
    rw [condListDollarFree, h c (by simp), ih (fun x hx => h x (by simp [hx]))]
    rfl

/-- `combineConds` keeps `$`-freeness. -/
theorem combineConds_df {cs : List Condition} (h : ∀ c ∈ cs, condDollarFree c = true) :
    condDollarFree (combineConds cs) = true := by
  match cs with
  | [] => rfl
  | [c] => exact h c (by simp)
  | c1 :: c2 :: rest =>
    show condListDollarFree (c1 :: c2 :: rest) = true
    exact condListDollarFree_of_forall h

/-- The tokens of a `WHERE <fragment>` line are the fragment parameter
keys. -/
theorem whereLine_tokens {f : String} {ps : List (String × Value)}
    (htok : ∀ rest, headNotName rest = true →
      extractTokensAux (f.data ++ rest) = ps.map Prod.fst ++ extractTokensAux rest) :
    extractTokensAux ("WHERE " ++ f).data = ps.map Prod.fst := by
  have e : ("WHERE " ++ f).data = "WHERE ".data ++ (f.data ++ []) := by
    simp [String.data_append]
  rw [e, extractAux_skip _ (by decide), htok [] (by decide), extractAux_nil,
    List.append_nil]

/-- Specification of `whereStage` on `$`-free conditions: the counter does
not decrease, the emitted line carries exactly the keys of the returned
parameters, and those keys are `param_{c0} .. param_{c1-1}`. -/
theorem whereStage_spec {wcs : List Condition} {c0 : Nat}
    (hdf : ∀ c ∈ wcs, condDollarFree c = true)
    {wp : List String} {wps : List (String × Value)} {c1 : Nat}
    (heq : whereStage wcs c0 = .ok (wp, wps, c1)) :
    c0 ≤ c1 ∧
    (wp.map (fun p => extractTokensAux p.data)).flatten = wps.map Prod.fst ∧
    wps.map Prod.fst = (List.range' c0 (c1 - c0)).map paramName := by
  cases wcs with
  | nil =>
    simp only [whereStage, Except.ok.injEq, Prod.mk.injEq] at heq
    obtain ⟨rfl, rfl, rfl⟩ := heq
    exact ⟨Nat.le_refl _, by simp, by simp⟩
  | cons w ws =>
    simp only [whereStage] at heq
    cases hcc : condToCypher (combineConds (w :: ws)) c0 with
    | error e =>
      rw [hcc, exceptBindErr] at heq
      exact absurd heq (by simp)
    | ok tr =>
      obtain ⟨f, ps0, c⟩ := tr
      rw [hcc, exceptBindOk] at heq
      simp only [Except.ok.injEq, Prod.mk.injEq] at heq
      obtain ⟨rfl, rfl, rfl⟩ := heq
      obtain ⟨hle, hkeys, htok⟩ := condToCypher_spec _ _ (combineConds_df hdf) hcc
      refine ⟨hle, ?_, hkeys⟩
      simp only [List.map_cons, List.map_nil, List.flatten_cons, List.flatten_nil,
        List.append_nil, whereLine_tokens htok]

/-- Specification of `midStage` under the session invariant: the counter
does not decrease, the emitted lines carry exactly the keys of the returned
(HAVING) parameters, and those keys are `param_{c1} .. param_{c2-1}`. -/
theorem midStage_spec {s : BuilderState} (hs : SInv s) {c1 : Nat}
    {mp : List String} {hps : List (String × Value)} {c2 : Nat}
    (heq : midStage s c1 = .ok (mp, hps, c2)) :
    c1 ≤ c2 ∧
    (mp.map (fun p => extractTokensAux p.data)).flatten = hps.map Prod.fst ∧
    hps.map Prod.fst = (List.range' c1 (c2 - c1)).map paramName := by
  rw [midStage] at heq
  by_cases hgb : s.group_by.isEmpty
  · rw [if_neg (by simpa using hgb)] at heq
    simp only [Except.ok.injEq, Prod.mk.injEq] at heq
    obtain ⟨rfl, rfl, rfl⟩ := heq
    refine ⟨Nat.le_refl _, ?_, by simp⟩
    have hdret : dollarFree ("RETURN " ++
        (if ¬ s.return_fields.isEmpty then joinSep ", " s.return_fields
         else joinSep ", " s.defined_aliases)) = true := by
      rw [dollarFree_append]
      have h2 : dollarFree (if ¬ s.return_fields.isEmpty then joinSep ", " s.return_fields
          else joinSep ", " s.defined_aliases) = true := by
        split
        · exact joinSep_df (by decide) _ hs.hRet
        · exact joinSep_df (by decide) _ hs.hAliases
      rw [h2]
      decide
    simp only [List.map_cons, List.map_nil, List.flatten_cons, List.flatten_nil,
      List.append_nil, tokens_of_df hdret]
  · rw [if_pos (by simpa using hgb)] at heq
    by_cases hrf : s.return_fields.isEmpty
    · rw [if_neg (by simpa using hrf)] at heq
      simp only [Except.ok.injEq, Prod.mk.injEq] at heq
      obtain ⟨rfl, rfl, rfl⟩ := heq
      refine ⟨Nat.le_refl _, ?_, by simp⟩
      have hdret : dollarFree ("RETURN " ++ joinSep ", " s.group_by) = true := by
        rw [dollarFree_append, joinSep_df (by decide) _ hs.hGroup]
        decide
      simp only [List.map_cons, List.map_nil, List.flatten_cons, List.flatten_nil,
        List.append_nil, tokens_of_df hdret]
    · rw [if_pos (by simpa using hrf)] at heq
      cases hws : whereStage s.having_conditions c1 with
      | error e =>
        rw [hws, exceptBindErr] at heq
        exact absurd heq (by simp)
      | ok tr =>
        obtain ⟨hp1, ps0, c⟩ := tr
        rw [hws, exceptBindOk] at heq
        simp only [Except.ok.injEq, Prod.mk.injEq] at heq
        obtain ⟨rfl, rfl, rfl⟩ := heq
        obtain ⟨hle, htok, hkeys⟩ := whereStage_spec (fun c hc => hs.hHaving c hc) hws
        refine ⟨hle, ?_, hkeys⟩
        have hdwith : dollarFree ("WITH " ++
            joinSep ", " (withFields s.group_by s.return_fields)) = true := by
          rw [dollarFree_append]
          have h2 : dollarFree (joinSep ", " (withFields s.group_by s.return_fields)) = true := by
            refine joinSep_df (by decide) _ ?_
            intro x hx
            rcases withFields_mem hx with h1 | h1
            · exact hs.hGroup x h1
            · exact hs.hRet x h1
          rw [h2]
          decide
        have hdret : dollarFree ("RETURN " ++ joinSep ", " s.return_fields) = true := by
          rw [dollarFree_append, joinSep_df (by decide) _ hs.hRet]
          decide
        simp only [List.map_append, List.map_cons, List.map_nil, List.flatten_append,
          List.flatten_cons, List.flatten_nil, List.append_nil, List.nil_append,
          tokens_of_df hdwith, tokens_of_df hdret, htok]

/-- The ORDER BY / SKIP / LIMIT lines carry no `$` tokens. -/
theorem tailClauses_tokens {s : BuilderState} (hs : SInv s) :
    ∀ p ∈ tailClauses s, extractTokensAux p.data = [] := by
  intro p hp
  rw [tailClauses] at hp
  rcases List.mem_append.mp hp with h1 | h1
  · rcases List.mem_append.mp h1 with h2 | h2
    · split at h2
      · simp at h2
      · simp at h2
        subst h2
        refine tokens_of_df ?_
        rw [dollarFree_append]
        have h3 : dollarFree (joinSep ", " (s.order_by.map (fun f =>
            match f.data with
            | '-' :: rest => String.mk rest ++ " DESC"
            | _ => f ++ " ASC"))) = true := by
          refine joinSep_df (by decide) _ ?_
          intro x hx
          simp only [List.mem_map] at hx
          obtain ⟨f, hf, rfl⟩ := hx
          have hdf := hs.hOrder f hf
          split
          · next r heq2 =>
            have hdmk : dollarFree (String.mk r) = true := by
              refine dollarFree_of_spec ?_
              intro x hxm
              exact dollarFree_spec hdf x (by rw [heq2]; simp [hxm])
            rw [dollarFree_append, hdmk]
            decide
          · rw [dollarFree_append, hdf]
            decide
        rw [h3]
        decide
    · cases hsk : s.skipN with
      | none => rw [hsk] at h2; simp at h2
      | some n =>
        rw [hsk] at h2
        simp at h2
        subst h2
        refine tokens_of_df ?_
        rw [dollarFree_append, repr_df]
        decide
  · cases hlm : s.limitN with
    | none => rw [hlm] at h1; simp at h1
    | some n =>
      rw [hlm] at h1
      simp at h1
      subst h1
      refine tokens_of_df ?_
      rw [dollarFree_append, repr_df]
      decide

/-- Token/key accounting of `to_cypher` under the session invariant: the
parameter keys are pairwise distinct and the `$name` tokens of the compiled
text are exactly the keys of the returned parameter map. -/
theorem to_cypher_tokens {s : BuilderState} (hs : SInv s) {t : String}
    {ps : List (String × Value)} {s2 : BuilderState}
    (heq : to_cypher s = .ok (t, ps, s2)) :
    (ps.map Prod.fst).Nodup ∧ (∀ k, k ∈ extractTokens t ↔ k ∈ ps.map Prod.fst) := by
  rw [to_cypher] at heq
  by_cases hmc : s.match_clauses.isEmpty
  · rw [if_pos hmc] at heq
    exact absurd heq (by simp)
  · rw [if_neg hmc] at heq
    cases hws : whereStage s.where_conditions s.param_counter with
    | error e =>
      rw [hws, exceptBindErr] at heq
      exact absurd heq (by simp)
    | ok trw =>
      obtain ⟨wp, wps, c1⟩ := trw
      rw [hws, exceptBindOk] at heq
      dsimp only at heq
      cases hms : midStage s c1 with
      | error e =>
        rw [hms, exceptBindErr] at heq
        exact absurd heq (by simp)
      | ok trm =>
        obtain ⟨mp, hps, c2⟩ := trm
        rw [hms, exceptBindOk] at heq
        simp only [Except.ok.injEq, Prod.mk.injEq] at heq
        obtain ⟨rfl, rfl, -⟩ := heq
        obtain ⟨hle1, hwtok, hwkeys⟩ := whereStage_spec (fun c hc => hs.hWhere c hc) hws
        obtain ⟨hle2, hmtok, hhkeys⟩ := midStage_spec hs hms
        have hhkeys2 : hps.map Prod.fst =
            (List.range' (s.param_counter + (c1 - s.param_counter)) (c2 - c1)).map
              paramName := by
          rw [hhkeys]
          congr 2
          omega
        exact assemble_tokens s.match_clauses wp mp (tailClauses s) wps hps s.filter_params
          s.param_counter (c1 - s.param_counter) (c2 - c1) hs.hMatch hs.hKeys hwtok hwkeys
          hmtok hhkeys2 (tailClauses_tokens hs)

/-! ## Supporting lemmas for the claim analysis -/

/-- With no HAVING conditions the middle stage allocates no parameters and
leaves the counter unchanged. -/
theorem midStage_no_having {s : BuilderState} (hh : s.having_conditions = [])
    (c1 : Nat) : ∃ mp, midStage s c1 = .ok (mp, [], c1) := by
  rw [midStage]
  by_cases hgb : s.group_by.isEmpty
  · rw [if_neg (by simpa using hgb)]
    exact ⟨_, rfl⟩
  · rw [if_pos (by simpa using hgb)]
    by_cases hrf : s.return_fields.isEmpty
    · rw [if_neg (by simpa using hrf)]
      exact ⟨_, rfl⟩
    · rw [if_pos (by simpa using hrf), hh]
      exact ⟨_, rfl⟩

/-- Exact membership in the WITH projection: the group-by fields plus the
return fields that the textual aggregate test does not recognise. -/
theorem withFields_iff (gb rs : List String) (f : String) :
    f ∈ withFields gb rs ↔ f ∈ gb ∨ (f ∈ rs ∧ isAggField f = false) := by
  have main : ∀ (rs acc : List String), f ∈ rs.foldl
      (fun acc g => if ¬ isAggField g ∧ ¬ acc.contains g then acc ++ [g] else acc) acc ↔
      f ∈ acc ∨ (f ∈ rs ∧ isAggField f = false) := by
    intro rs
    induction rs with
    | nil => intro acc; simp
    | cons r rs ih =>
      intro acc
      simp only [List.foldl_cons]
      by_cases hagg : isAggField r
      · rw [if_neg (by simp [hagg]), ih]
        constructor
        · rintro (h | h)
          · exact Or.inl h
          · exact Or.inr ⟨by simp [h.1], h.2⟩
        · rintro (h | ⟨h1, h2⟩)
          · exact Or.inl h
          · rcases List.mem_cons.mp h1 with rfl | h3
            · simp [hagg] at h2
            · exact Or.inr ⟨h3, h2⟩
      · by_cases hc : acc.contains r
        · rw [if_neg (by simp [contains_mem hc]), ih]
          constructor
          · rintro (h | h)
            · exact Or.inl h
            · exact Or.inr ⟨by simp [h.1], h.2⟩
          · rintro (h | ⟨h1, h2⟩)
            · exact Or.inl h
            · rcases List.mem_cons.mp h1 with rfl | h3
              · exact Or.inl (contains_mem hc)
              · exact Or.inr ⟨h3, h2⟩
        · rw [if_pos ⟨by simpa using hagg, by simpa using hc⟩, ih]
          constructor
          · rintro (h | h)
            · rcases List.mem_append.mp h with h2 | h2
              · exact Or.inl h2
              · simp only [List.mem_singleton] at h2
                subst h2
                exact Or.inr ⟨by simp, by simpa using hagg⟩
            · exact Or.inr ⟨by simp [h.1], h.2⟩
          · rintro (h | ⟨h1, h2⟩)
            · exact Or.inl (List.mem_append.mpr (Or.inl h))
            · rcases List.mem_cons.mp h1 with rfl | h3
              · exact Or.inl (List.mem_append.mpr (Or.inr (by simp)))
              · exact Or.inr ⟨h3, h2⟩
  rw [withFields]
  exact main rs gb

/-- Bridge from membership to `List.contains` (strings). -/
theorem mem_contains {l : List String} {x : String} (h : x ∈ l) : l.contains x = true := by
  simpa using h

/-- The alias bookkeeping invariant: the registered alias list is exactly the
key list of the alias-to-kind map, without duplicates.  It holds in every
reachable builder state, also after a failed call (the Python exception
leaves the partially mutated state behind). -/
def AliasInv (s : BuilderState) : Prop :=
  s.defined_aliases = s.node_types.map Prod.fst ∧ s.defined_aliases.Nodup

/-- Extending the symbol table with a fresh alias keeps the invariant's two
components. -/
theorem AliasInv_extend {s : BuilderState} (h : AliasInv s) {a nt : String}
    (hfresh : s.defined_aliases.contains a = false) :
    s.defined_aliases ++ [a] = (s.node_types ++ [(a, nt)]).map Prod.fst ∧
    (s.defined_aliases ++ [a]).Nodup := by
  refine ⟨?_, ?_⟩
  · rw [List.map_append, ← h.1]
    rfl
  · refine List.Nodup.append h.2 (List.nodup_singleton a) ?_
    intro x hx hxa
    rw [List.mem_singleton] at hxa
    subst hxa
    have hco := mem_contains hx
    rw [hfresh] at hco
    exact Bool.noConfusion hco

/-- `findRegistered` preserves the alias invariant, on success and on
failure. -/
theorem findRegistered_AliasInv {s : BuilderState} (h : AliasInv s) (tval a : String)
    (filters : List (String × Value)) :
    AliasInv (findRegistered s tval a filters).1 := by
  unfold findRegistered register_alias
  by_cases hreg : s.defined_aliases.contains a
  · rw [if_pos hreg]
    exact h
  · rw [if_neg hreg]
    have hf : s.defined_aliases.contains a = false := by simpa using hreg
    dsimp only
    rcases hpf : processFilters filters s.param_counter with ⟨parts, params, n2, e2⟩
    cases e2 with
    | some err => exact ⟨(@AliasInv_extend s h a tval hf).1, (@AliasInv_extend s h a tval hf).2⟩
    | none => exact ⟨(@AliasInv_extend s h a tval hf).1, (@AliasInv_extend s h a tval hf).2⟩

/-- `findOp` preserves the alias invariant. -/
theorem findOp_AliasInv {s : BuilderState} (h : AliasInv s) (nt : String)
    (a? : Option String) (filters : List (String × Value)) :
    AliasInv (findOp s nt a? filters).1 := by
  unfold findOp
  cases hv : validate_node_type nt with
  | error e => exact h
  | ok tval =>
    dsimp only
    exact findRegistered_AliasInv h tval _ filters

/-- `withRelCore` preserves the alias invariant. -/
theorem withRelCore_AliasInv {s : BuilderState} (h : AliasInv s)
    (rel_type from_alias : String) (to_node_type : Option String) (to_alias : String)
    (direction : String) (hops : Nat) :
    AliasInv (withRelCore s rel_type from_alias to_node_type to_alias direction hops).1 := by
  unfold withRelCore
  cases to_node_type with
  | none =>
    dsimp only
    exact ⟨h.1, h.2⟩
  | some t =>
    dsimp only
    unfold register_alias
    by_cases hreg : s.defined_aliases.contains to_alias
    · rw [if_pos hreg]
      exact h
    · rw [if_neg hreg]
      have hf : s.defined_aliases.contains to_alias = false := by simpa using hreg
      dsimp only
      exact ⟨(@AliasInv_extend s h to_alias t hf).1, (@AliasInv_extend s h to_alias t hf).2⟩

/-- `withRelFrom` preserves the alias invariant. -/
theorem withRelFrom_AliasInv {s : BuilderState} (h : AliasInv s) (rel_type : String)
    (from_alias? toType aliasName : Option String) (direction : String) (hops : Nat) :
    AliasInv (withRelFrom s rel_type from_alias? toType aliasName direction hops).1 := by
  unfold withRelFrom
  cases from_alias? with
  | none => exact h
  | some fa =>
    dsimp only
    by_cases hda : ¬ s.defined_aliases.contains fa
    · rw [if_pos hda]
      exact h
    · rw [if_neg hda]
      cases toType with
      | none =>
        dsimp only
        exact withRelCore_AliasInv h rel_type fa none _ direction hops
      | some t =>
        dsimp only
        cases hvt : validate_node_type t with
        | error e =>
          simp only [Except.map, hvt]
          exact h
        | ok tv =>
          simp only [Except.map, hvt]
          exact withRelCore_AliasInv h rel_type fa (some tv) _ direction hops

/-- `with_relationship` preserves the alias invariant. -/
theorem with_relationship_AliasInv {s : BuilderState} (h : AliasInv s)
    (relationship : String) (toType from_node aliasName : Option String)
    (direction : String) (hops : Nat) :
    AliasInv (with_relationship s relationship toType from_node aliasName direction hops).1 := by
  unfold with_relationship
  cases hv : validate_relationship_type relationship with
  | error e => exact h
  | ok rt =>
    dsimp only
    exact withRelFrom_AliasInv h rt _ toType aliasName direction hops

/-- Every builder call preserves the alias invariant, whether it succeeds or
raises. -/
theorem applyCall_AliasInv {s : BuilderState} (h : AliasInv s) (c : BuilderCall) :
    AliasInv (applyCall s c).1 := by
  cases c with
  | find nt a filters => exact findOp_AliasInv h nt a filters
  | withRel rel toT fromN a dir hops =>
    exact with_relationship_AliasInv h rel toT fromN a dir hops
  | whereCond c => exact ⟨h.1, h.2⟩
  | returnFields fields =>
    cases hvr : validate_return_fields s fields with
    | some e =>
      simp only [applyCall, hvr]
      exact h
    | none =>
      simp only [applyCall, hvr]
      exact ⟨h.1, h.2⟩
  | orderBy fields =>
    cases hvr : validate_order_by s fields with
    | some e =>
      simp only [applyCall, hvr]
      exact h
    | none =>
      simp only [applyCall, hvr]
      exact ⟨h.1, h.2⟩
  | groupBy fields =>
    cases hvr : validate_return_fields s fields with
    | some e =>
      simp only [applyCall, hvr]
      exact h
    | none =>
      simp only [applyCall, hvr]
      exact ⟨h.1, h.2⟩
  | havingCond c => exact ⟨h.1, h.2⟩
  | limit n =>
    simp only [applyCall]
    split
    · exact h
    · exact ⟨h.1, h.2⟩
  | skip n =>
    simp only [applyCall]
    split
    · exact h
    · exact ⟨h.1, h.2⟩

/-- The alias invariant holds after any call sequence, also one that stopped
at an error. -/
theorem runFrom_AliasInv : ∀ (calls : List BuilderCall) (s : BuilderState),
    AliasInv s → AliasInv (runFrom s calls).1 := by
  intro calls
  induction calls with
  | nil => intro s h; exact h
  | cons c cs ih =>
    intro s h
    rw [runFrom]
    rcases hap : applyCall s c with ⟨s1, e1⟩
    have h1 : AliasInv s1 := by
      have h2 := applyCall_AliasInv h c
      rw [hap] at h2
      exact h2
    cases e1 with
    | none =>
      dsimp only
      exact ih s1 h1
    | some err =>
      dsimp only
      exact h1

/-- The filter loop reports the first failing injection check. -/
theorem processFilters_err :
    ∀ (filters : List (String × Value)) (n : Nat),
      (∃ pv ∈ filters, validate_cypher_injection pv.2 ≠ none) →
      ∃ parts params n' pat,
        processFilters filters n = (parts, params, n', some (.injectionRisk pat)) := by
  intro filters
  induction filters with
  | nil =>
    intro n h
    simp at h
  | cons pv rest ih =>
    intro n h
    obtain ⟨prop, v⟩ := pv
    cases hv : validate_cypher_injection v with
    | some pat =>
      refine ⟨[], [], n, pat, ?_⟩
      simp only [processFilters, hv]
    | none =>
      have hrest : ∃ qv ∈ rest, validate_cypher_injection qv.2 ≠ none := by
        rcases h with ⟨qv, hq, hbad⟩
        rcases List.mem_cons.mp hq with rfl | h2
        · exact absurd hv hbad
        · exact ⟨qv, h2, hbad⟩
      obtain ⟨parts, params, n', pat, hpf⟩ := ih (n + 1) hrest
      refine ⟨(prop ++ ": $" ++ paramName n) :: parts, (paramName n, v) :: params, n', pat, ?_⟩
      simp only [processFilters, hv, hpf]

/-- A lookup skips a head entry with a different key. -/
theorem lookup_cons_ne {f k : String} {v : Value} {rest : List (String × Value)}
    (h : k ≠ f) : ((f, v) :: rest).lookup k = rest.lookup k := by
  simp [List.lookup, beq_false_of_ne h]

/-! ## The claims -/

/-- C1 (amended): compiling is stable when the session added no `where()` and
no `having()` condition: `to_cypher` then returns the state unchanged, and a
second compile returns byte-identical text and parameter map.  (With a WHERE
or HAVING condition present this fails: each compile allocates fresh
parameter names from the mutated session counter, see the counterexample.) -/
theorem compile_stable_without_conditions {s : BuilderState}
    (hw : s.where_conditions = []) (hh : s.having_conditions = [])
    {t : String} {ps : List (String × Value)} {s2 : BuilderState}
    (heq : to_cypher s = .ok (t, ps, s2)) :
    s2 = s ∧ to_cypher s2 = .ok (t, ps, s2) := by
  have hst : s2 = s := by
    rw [to_cypher] at heq
    by_cases hmc : s.match_clauses.isEmpty
    · rw [if_pos hmc] at heq
      exact absurd heq (by simp)
    · rw [if_neg hmc] at heq
      rw [show whereStage s.where_conditions s.param_counter
          = .ok ([], [], s.param_counter) from hw ▸ rfl,
        exceptBindOk] at heq
      dsimp only at heq
      obtain ⟨mp, hms⟩ := midStage_no_having hh s.param_counter
      rw [hms, exceptBindOk] at heq
      simp only [Except.ok.injEq, Prod.mk.injEq] at heq
      obtain ⟨-, -, h2⟩ := heq
      rw [← h2]
  refine ⟨hst, ?_⟩
  rw [hst] at heq ⊢
  exact heq

/-- C1 witness: a session with one MATCH clause and no conditions compiles to
the same text, parameters and state again. -/
theorem compile_stable_without_conditions_demo :
    to_cypher { match_clauses := ["MATCH (a:AS)"], defined_aliases := ["a"] }
      = .ok ("MATCH (a:AS)\nRETURN a", [],
          { match_clauses := ["MATCH (a:AS)"], defined_aliases := ["a"] }) :=
  (@compile_stable_without_conditions
    { match_clauses := ["MATCH (a:AS)"], defined_aliases := ["a"] } rfl rfl
    "MATCH (a:AS)\nRETURN a" []
    { match_clauses := ["MATCH (a:AS)"], defined_aliases := ["a"] } rfl).2

/-- C1 counterexample: after a `where()` condition, the two compiles of the
same session state return different texts (`$param_0` versus `$param_1`): the
first compile advances the session-wide parameter counter. -/
theorem compile_twice_where_counterexample :
    compileTwice [.find "AS" (some "as") [],
        .whereCond (.q "as.asn" (some ">") (.int 1000))]
      = some ("MATCH (as:AS)\nWHERE as.asn > $param_0\nRETURN as",
              "MATCH (as:AS)\nWHERE as.asn > $param_1\nRETURN as") ∧
    ("MATCH (as:AS)\nWHERE as.asn > $param_0\nRETURN as" : String)
      ≠ "MATCH (as:AS)\nWHERE as.asn > $param_1\nRETURN as" :=
  ⟨rfl, by decide⟩

/-- The session used by the C2 divergence theorem: one registered `as:AS`
root. -/
def c2State : BuilderState :=
  { match_clauses := ["MATCH (as:AS)"], defined_aliases := ["as"],
    node_types := [("as", "AS")], root_alias := some "as",
    root_node_type := some "AS" }

/-- C2: direction rendering.  `to_cypher_pattern` renders `in` correctly as
`(target)<-[rel]-(source)` but renders `out` as `(source)->[rel]-(target)`
(arrowhead on the wrong side, not the claimed `(source)-[rel]->(target)`);
`with_relationship` renders `out` correctly but renders `in` as the
undirected `(target)-[rel]-(source)` (the computed arrow is not used). -/
theorem direction_rendering_divergence :
    TraversalStep.to_cypher_pattern
        { relationship := "DEPENDS_ON", direction := "in",
          target_node_type := some "AS", aliasName := some "d" } "a"
      = "(d:AS)<-[:DEPENDS_ON]-(a)" ∧
    TraversalStep.to_cypher_pattern
        { relationship := "DEPENDS_ON", direction := "out",
          target_node_type := some "AS", aliasName := some "d" } "a"
      = "(a)->[:DEPENDS_ON]-(d:AS)" ∧
    ("(a)->[:DEPENDS_ON]-(d:AS)" : String) ≠ "(a)-[:DEPENDS_ON]->(d:AS)" ∧
    (with_relationship c2State
        "COUNTRY" (some "Country") none (some "c") "in" 1).1.match_clauses
      = ["MATCH (as:AS)", "MATCH (c:Country)-[:COUNTRY]-(as)"] ∧
    ("MATCH (c:Country)-[:COUNTRY]-(as)" : String)
      ≠ "MATCH (c:Country)<-[:COUNTRY]-(as)" :=
  ⟨rfl, rfl, by decide, rfl, by decide⟩

/-- C3 (amended): the WITH projection contains exactly the group-by fields
plus the return fields that the textual aggregate test does not recognise --
but that test only knows `count(`, `sum(` and `avg(`; `min(` / `max(` are not
excluded.  The claim's own count/having example compiles as stated. -/
theorem with_clause_fields_amended :
    (∀ gb rs f, f ∈ withFields gb rs ↔ f ∈ gb ∨ (f ∈ rs ∧ isAggField f = false)) ∧
    isAggField "count(as) as as_count" = true ∧
    isAggField "min(x) as m" = false ∧
    compileOnce [.find "Country" (some "c") [],
        .withRel "COUNTRY" (some "AS") none (some "as") "in" 1,
        .groupBy ["c.country_code"],
        .returnFields ["c.country_code", "count(as) as as_count"],
        .havingCond (.q "as_count" (some ">") (.int 10))]
      = some ("MATCH (c:Country)\nMATCH (as:AS)-[:COUNTRY]-(c)\nWITH c.country_code\nWHERE as_count > $param_0\nRETURN c.country_code, count(as) as as_count",
          [("param_0", Value.int 10)]) :=
  ⟨withFields_iff, by decide, by decide, rfl⟩

/-- C3 counterexample: a `min(...)` return field is NOT treated as an
aggregate, so it is copied into the WITH projection, unlike what the claim
predicts. -/
theorem with_clause_min_counterexample :
    compileOnce [.find "Country" (some "c") [], .groupBy ["c.country_code"],
        .returnFields ["c.country_code", "min(x) as m"]]
      = some ("MATCH (c:Country)\nWITH c.country_code, min(x) as m\nRETURN c.country_code, min(x) as m",
          []) ∧
    ("MATCH (c:Country)\nWITH c.country_code, min(x) as m\nRETURN c.country_code, min(x) as m" : String)
      ≠ "MATCH (c:Country)\nWITH c.country_code\nRETURN c.country_code, min(x) as m" :=
  ⟨rfl, by decide⟩

/-- C4: the spec's one-find example compiles exactly as claimed (a one-element
alias set has only one iteration order).  The general registration-order claim
is the code bug recorded for this claim: the joined `defined_aliases` is a
Python set with unspecified iteration order. -/
theorem return_all_aliases_single_find :
    compileOnce [.find "AS" none [("asn", Value.int 15169)]]
      = some ("MATCH (as:AS \x7basn: $param_0\x7d)\nRETURN as",
          [("param_0", Value.int 15169)]) :=
  rfl

/-- C5 (amended): for every `$`-free builder call sequence whose compile
succeeds, the parameter keys are pairwise distinct and the `$name` tokens of
the compiled text are exactly the parameter keys.  (Without the `$`-free side
condition the claim fails: user text containing `$` forges extra tokens, see
the counterexample.) -/
theorem compiled_tokens_are_param_keys {calls : List BuilderCall}
    (hdf : ∀ c ∈ calls, callDollarFree c = true)
    {t : String} {ps : List (String × Value)}
    (heq : compileOnce calls = some (t, ps)) :
    (ps.map Prod.fst).Nodup ∧ (∀ k, k ∈ extractTokens t ↔ k ∈ ps.map Prod.fst) := by
  rw [compileOnce] at heq
  rcases hrun : runCalls calls with ⟨s, eo⟩
  rw [hrun] at heq
  cases eo with
  | some e =>
    dsimp only at heq
    exact Option.noConfusion heq
  | none =>
    dsimp only at heq
    cases htc : to_cypher s with
    | error e =>
      rw [htc] at heq
      exact Option.noConfusion heq
    | ok tr =>
      obtain ⟨t1, ps1, s2⟩ := tr
      rw [htc] at heq
      dsimp only at heq
      simp only [Option.some.injEq, Prod.mk.injEq] at heq
      obtain ⟨rfl, rfl⟩ := heq
      exact to_cypher_tokens (runFrom_SInv calls initState s SInv_init hdf hrun) htc

/-- C5 witness: the one-find session's compiled text has exactly the token
`param_0`, the key of its one-entry parameter map. -/
theorem compiled_tokens_demo :
    (∀ c ∈ [BuilderCall.find "AS" none [("asn", Value.int 15169)]],
      callDollarFree c = true) ∧
    ((([("param_0", Value.int 15169)] : List (String × Value)).map Prod.fst).Nodup ∧
      (∀ k, k ∈ extractTokens "MATCH (as:AS \x7basn: $param_0\x7d)\nRETURN as"
        ↔ k ∈ ([("param_0", Value.int 15169)] : List (String × Value)).map Prod.fst)) :=
  ⟨by decide,
    @compiled_tokens_are_param_keys [BuilderCall.find "AS" none [("asn", Value.int 15169)]]
      (by decide) "MATCH (as:AS \x7basn: $param_0\x7d)\nRETURN as"
      [("param_0", Value.int 15169)] rfl⟩

/-- C5 counterexample: a `where()` condition whose field text contains `$`
compiles to a text with a `$x` token that has no parameter-map entry. -/
theorem compiled_tokens_counterexample :
    compileOnce [.find "AS" (some "as") [], .whereCond (.q "$x" (some "=") (.int 1))]
      = some ("MATCH (as:AS)\nWHERE $x = $param_0\nRETURN as",
          [("param_0", Value.int 1)]) ∧
    "x" ∈ extractTokens "MATCH (as:AS)\nWHERE $x = $param_0\nRETURN as" ∧
    "x" ∉ ([("param_0", Value.int 1)] : List (String × Value)).map Prod.fst :=
  ⟨rfl, by decide, by decide⟩

/-- C6: the combinator identity laws.  `And []` compiles to `"true"`, `Or []`
to `"false"`, `And [A]` to `A`'s fragment wrapped once in parentheses,
`Not (Not A)` to `A`'s fragment under two `NOT (...)` layers (never
simplified), and non-empty `And` / `Or` wrap each child fragment in
parentheses and join with their keyword (`Or` adds one outer pair). -/
theorem condition_combinator_laws (A : Condition) (c : Nat) :
    condToCypher (.and []) c = .ok ("true", [], c) ∧
    condToCypher (.or []) c = .ok ("false", [], c) ∧
    (∀ f ps c', condToCypher A c = .ok (f, ps, c') →
      condToCypher (.and [A]) c = .ok ("(" ++ f ++ ")", ps, c') ∧
      condToCypher (.not (.not A)) c
        = .ok ("NOT (" ++ ("NOT (" ++ f ++ ")") ++ ")", ps, c')) ∧
    (∀ (c1 : Condition) (cs : List Condition) fs ps c',
      condListToCypher (c1 :: cs) c = .ok (fs, ps, c') →
      condToCypher (.and (c1 :: cs)) c
        = .ok (joinSep " AND " (fs.map (fun g => "(" ++ g ++ ")")), ps, c') ∧
      condToCypher (.or (c1 :: cs)) c
        = .ok ("(" ++ joinSep " OR " (fs.map (fun g => "(" ++ g ++ ")")) ++ ")", ps, c')) := by
  refine ⟨rfl, rfl, ?_, ?_⟩
  · intro f ps c' h
    constructor
    · show (do
          let (fs, ps2, c2) ← condListToCypher [A] c
          Except.ok (joinSep " AND " (fs.map (fun g => "(" ++ g ++ ")")), ps2, c2) :
            Except QueryErr (String × List (String × Value) × Nat))
        = .ok ("(" ++ f ++ ")", ps, c')
      rw [show condListToCypher [A] c = (do
          let (f1, ps1, c1) ← condToCypher A c
          Except.ok ([f1], ps1 ++ [], c1) :
            Except QueryErr (List String × List (String × Value) × Nat)) from rfl,
        h, exceptBindOk]
      dsimp only
      rw [exceptBindOk]
      dsimp only
      simp [joinSep]
    · show (do
          let (f1, ps1, c1) ← condToCypher (.not A) c
          Except.ok ("NOT (" ++ f1 ++ ")", ps1, c1) :
            Except QueryErr (String × List (String × Value) × Nat))
        = .ok ("NOT (" ++ ("NOT (" ++ f ++ ")") ++ ")", ps, c')
      rw [show condToCypher (.not A) c = (do
          let (f2, ps2, c2) ← condToCypher A c
          Except.ok ("NOT (" ++ f2 ++ ")", ps2, c2) :
            Except QueryErr (String × List (String × Value) × Nat)) from rfl,
        h, exceptBindOk]
      dsimp only
      rw [exceptBindOk]
  · intro c1 cs fs ps c' h
    constructor
    · show (do
          let (fs2, ps2, c2) ← condListToCypher (c1 :: cs) c
          Except.ok (joinSep " AND " (fs2.map (fun g => "(" ++ g ++ ")")), ps2, c2) :
            Except QueryErr (String × List (String × Value) × Nat))
        = .ok (joinSep " AND " (fs.map (fun g => "(" ++ g ++ ")")), ps, c')
      rw [h, exceptBindOk]
    · show (do
          let (fs2, ps2, c2) ← condListToCypher (c1 :: cs) c
          Except.ok ("(" ++ joinSep " OR " (fs2.map (fun g => "(" ++ g ++ ")")) ++ ")",
            ps2, c2) :
            Except QueryErr (String × List (String × Value) × Nat))
        = .ok ("(" ++ joinSep " OR " (fs.map (fun g => "(" ++ g ++ ")")) ++ ")", ps, c')
      rw [h, exceptBindOk]

/-- C6 witness: the laws at the atom `x = 1` with a fresh counter. -/
theorem condition_combinator_laws_demo :
    condToCypher (.and [.q "x" (some "=") (.int 1)]) 0
      = .ok ("(" ++ "x = $param_0" ++ ")", [("param_0", Value.int 1)], 1) ∧
    condToCypher (.not (.not (.q "x" (some "=") (.int 1)))) 0
      = .ok ("NOT (" ++ ("NOT (" ++ "x = $param_0" ++ ")") ++ ")",
          [("param_0", Value.int 1)], 1) :=
  (condition_combinator_laws (.q "x" (some "=") (.int 1)) 0).2.2.1
    "x = $param_0" [("param_0", Value.int 1)] 1 rfl

/-- C7: re-registering an alias fails.  Two `find` calls with the same alias
stop with `duplicateAlias` and compile to no text; and after every call
sequence (successful or stopped at an error) the alias-to-kind map binds each
alias at most once, so an alias never has two kinds and never changes kind. -/
theorem alias_registration_unique :
    (runCalls [.find "AS" (some "a") [], .find "AS" (some "a") []]).2
      = some (QueryErr.duplicateAlias "a") ∧
    compileOnce [.find "AS" (some "a") [], .find "AS" (some "a") []] = none ∧
    (∀ calls : List BuilderCall,
      ((runCalls calls).1.node_types.map Prod.fst).Nodup) := by
  refine ⟨rfl, rfl, ?_⟩
  intro calls
  obtain ⟨h1, h2⟩ := runFrom_AliasInv calls initState ⟨rfl, List.nodup_nil⟩
  show ((runFrom initState calls).1.node_types.map Prod.fst).Nodup
  rw [← h1]
  exact h2

/-- C8: a `find` whose filters contain a value failing the injection guard
raises `injectionRisk` and appends neither the MATCH clause nor the filter
parameters; non-string values always pass the guard; a string containing
`DELETE` case-insensitively is rejected with that pattern. -/
theorem find_injection_guard {s : BuilderState} {nt a : String}
    {filters : List (String × Value)}
    (hnt : nodeTypeValues.contains nt = true)
    (hfresh : s.defined_aliases.contains a = false)
    (hbad : ∃ pv ∈ filters, validate_cypher_injection pv.2 ≠ none) :
    (∃ pat, (findOp s nt (some a) filters).2 = some (.injectionRisk pat)) ∧
    (findOp s nt (some a) filters).1.match_clauses = s.match_clauses ∧
    (findOp s nt (some a) filters).1.filter_params = s.filter_params ∧
    (∀ v : Value, v.isStr = false → validate_cypher_injection v = none) ∧
    (∀ str : String, isSubstringOf "DELETE".data (strUpper str).data = true →
      validate_cypher_injection (.str str) = some "DELETE") := by
  obtain ⟨parts, params, n', pat, hpf⟩ := processFilters_err filters s.param_counter hbad
  have hred : findOp s nt (some a) filters =
      ({ s with defined_aliases := s.defined_aliases ++ [a],
                node_types := s.node_types ++ [(a, nt)],
                root_alias := some a, root_node_type := some nt,
                param_counter := n' },
        some (.injectionRisk pat)) := by
    unfold findOp
    rw [show validate_node_type nt = .ok nt from by rw [validate_node_type, if_pos hnt]]
    dsimp only
    unfold findRegistered
    rw [show register_alias s a nt = .ok { s with
        defined_aliases := s.defined_aliases ++ [a],
        node_types := s.node_types ++ [(a, nt)] } from by
      rw [register_alias, if_neg (by rw [hfresh]; simp)]]
    dsimp only
    rw [hpf]
  rw [hred]
  refine ⟨⟨pat, rfl⟩, rfl, rfl, ?_, ?_⟩
  · intro v hv
    cases v with
    | str s2 => simp [Value.isStr] at hv
    | int n => rfl
    | bool b => rfl
    | list vs => rfl
    | dict es => rfl
  · intro str h
    simp only [validate_cypher_injection, dangerousPatterns]
    exact List.find?_cons_of_pos _ h

/-- C8 witness: a filter value embedding `DROP` is rejected on a fresh
session. -/
theorem find_injection_guard_demo :
    nodeTypeValues.contains "AS" = true ∧
    initState.defined_aliases.contains "a" = false ∧
    (∃ pat, (findOp initState "AS" (some "a")
        [("name", Value.str "x; DROP everything")]).2
      = some (.injectionRisk pat)) ∧
    (findOp initState "AS" (some "a")
        [("name", Value.str "x; DROP everything")]).1.match_clauses = [] :=
  ⟨by decide, by decide,
    (find_injection_guard (by decide) (by decide)
      ⟨("name", Value.str "x; DROP everything"), by simp, by decide⟩).1,
    (find_injection_guard (by decide) (by decide)
      ⟨("name", Value.str "x; DROP everything"), by simp, by decide⟩).2.1⟩

/-- C9 (amended): without the reserved keys, `dict_to_condition` of a
dictionary whose first field consumes immediately (a non-dict value, or an
operator dictionary with at least one key) depends only on that first pair --
the rest is silently discarded -- and an operator dictionary is consumed at
its first operator key only.  (The claim's "first field-value pair" is not
quite right when the first value is an EMPTY operator dictionary: then the
loop silently moves past it, see the counterexample.) -/
theorem dict_to_condition_first_pair {f : String} {v : Value}
    {rest : List (String × Value)}
    (hf1 : f ≠ "AND") (hf2 : f ≠ "OR") (hf3 : f ≠ "NOT")
    (hA : rest.lookup "AND" = none) (hO : rest.lookup "OR" = none)
    (hN : rest.lookup "NOT" = none)
    (hne : ∀ ops, v = Value.dict ops → ops ≠ []) :
    dict_to_condition ((f, v) :: rest) = dict_to_condition [(f, v)] ∧
    (∀ op val more, v = Value.dict ((op, val) :: more) →
      dict_to_condition ((f, v) :: rest) = opCond f op val) := by
  have h1 : dict_to_condition ((f, v) :: rest) = dictFields ((f, v) :: rest) :=
    dtc_no_reserved (by rw [lookup_cons_ne (Ne.symm hf1), hA])
      (by rw [lookup_cons_ne (Ne.symm hf2), hO])
      (by rw [lookup_cons_ne (Ne.symm hf3), hN])
  have h2 : dict_to_condition [(f, v)] = dictFields [(f, v)] :=
    dtc_no_reserved (by rw [lookup_cons_ne (Ne.symm hf1)]; rfl)
      (by rw [lookup_cons_ne (Ne.symm hf2)]; rfl)
      (by rw [lookup_cons_ne (Ne.symm hf3)]; rfl)
  constructor
  · rw [h1, h2]
    cases v with
    | dict ops =>
      cases ops with
      | nil => exact absurd rfl (hne [] rfl)
      | cons o os =>
        obtain ⟨op, val⟩ := o
        rfl
    | int n => rfl
    | str s => rfl
    | bool b => rfl
    | list vs => rfl
  · intro op val more hv
    subst hv
    rw [h1]
    rfl

/-- C9 witness: with two plain fields, the second is discarded without an
error. -/
theorem dict_to_condition_first_pair_demo :
    dict_to_condition [("b", Value.int 1), ("c", Value.int 2)]
      = dict_to_condition [("b", Value.int 1)] ∧
    dict_to_condition [("b", Value.int 1)]
      = .ok (.q "b" (some "=") (Value.int 1)) :=
  ⟨(@dict_to_condition_first_pair "b" (Value.int 1) [("c", Value.int 2)]
      (by decide) (by decide) (by decide) rfl rfl rfl
      (fun ops h => by cases h)).1,
    by rw [@dtc_no_reserved [("b", Value.int 1)] rfl rfl rfl]; rfl⟩

/-- C9 counterexample: a first field mapped to an EMPTY operator dictionary is
silently skipped -- the result is built from the SECOND pair -- and when it is
the only field the call raises instead of returning a condition. -/
theorem dict_to_condition_skips_empty_opdict :
    dict_to_condition [("a", Value.dict []), ("b", Value.int 1)]
      = .ok (.q "b" (some "=") (Value.int 1)) ∧
    dict_to_condition [("a", Value.dict [])] = .error .valueError :=
  ⟨by rw [@dtc_no_reserved [("a", Value.dict []), ("b", Value.int 1)] rfl rfl rfl]; rfl,
    by rw [@dtc_no_reserved [("a", Value.dict [])] rfl rfl rfl]; rfl⟩

/-- C10: `find` interpolates each filter's property name verbatim into the
MATCH pattern (`prop: $param_i`): no hypothesis on `prop` is needed -- it is
neither checked against the node kind's allowed properties nor passed through
the injection guard -- while the value is guard-checked and bound as a
parameter. -/
theorem find_interpolates_property_verbatim {s : BuilderState} {nt a prop : String}
    {v : Value}
    (hnt : nodeTypeValues.contains nt = true)
    (hfresh : s.defined_aliases.contains a = false)
    (hv : validate_cypher_injection v = none) :
    (findOp s nt (some a) [(prop, v)]).2 = none ∧
    (findOp s nt (some a) [(prop, v)]).1.match_clauses
      = s.match_clauses ++
        ["MATCH " ++ ("(" ++ a ++ ":" ++ nt ++ " \x7b" ++
          (prop ++ ": $" ++ paramName s.param_counter) ++ "\x7d)")] ∧
    (findOp s nt (some a) [(prop, v)]).1.filter_params
      = s.filter_params ++ [(paramName s.param_counter, v)] := by
  have hred : findOp s nt (some a) [(prop, v)] =
      ({ s with defined_aliases := s.defined_aliases ++ [a],
                node_types := s.node_types ++ [(a, nt)],
                root_alias := some a, root_node_type := some nt,
                param_counter := s.param_counter + 1,
                filter_params := s.filter_params ++ [(paramName s.param_counter, v)],
                match_clauses := s.match_clauses ++
                  ["MATCH " ++ ("(" ++ a ++ ":" ++ nt ++ " \x7b" ++
                    joinSep ", " [prop ++ ": $" ++ paramName s.param_counter] ++
                    "\x7d)")] },
        none) := by
    unfold findOp
    rw [show validate_node_type nt = .ok nt from by rw [validate_node_type, if_pos hnt]]
    dsimp only
    unfold findRegistered
    rw [show register_alias s a nt = .ok { s with
        defined_aliases := s.defined_aliases ++ [a],
        node_types := s.node_types ++ [(a, nt)] } from by
      rw [register_alias, if_neg (by rw [hfresh]; simp)]]
    dsimp only
    rw [show processFilters [(prop, v)] s.param_counter
        = ([prop ++ ": $" ++ paramName s.param_counter],
           [(paramName s.param_counter, v)], s.param_counter + 1, none) from by
      simp only [processFilters, hv]]
    rfl
  rw [hred]
  exact ⟨rfl, rfl, rfl⟩

/-- C10 witness: the blocked keyword `DELETE`, not an allowed `AS` property
and itself rejected by the guard when used as a VALUE, passes straight into
the pattern text when used as a property NAME. -/
theorem find_interpolates_property_demo :
    validate_cypher_injection (Value.str "DELETE") = some "DELETE" ∧
    (get_node_properties "AS").contains "DELETE" = false ∧
    (findOp initState "AS" (some "a") [("DELETE", Value.int 1)]).2 = none ∧
    (findOp initState "AS" (some "a") [("DELETE", Value.int 1)]).1.match_clauses
      = ["MATCH (a:AS \x7bDELETE: $param_0\x7d)"] :=
  ⟨rfl, rfl,
    (@find_interpolates_property_verbatim initState "AS" "a" "DELETE" (Value.int 1)
      (by decide) (by decide) rfl).1,
    ((@find_interpolates_property_verbatim initState "AS" "a" "DELETE" (Value.int 1)
      (by decide) (by decide) rfl).2.1).trans rfl⟩
